import Mathlib

/-!
Backup Buddy — verification of the snapshot lifecycle engine.

A shallow embedding of the core of the `backup-buddy` VS Code extension
(`backupManager.ts`, `validation.ts`) in Lean 4, together with theorems
settling the specification claims about it.

Conventions:
* JS strings are modelled as `List Char`; the POSIX path separator `'/'` is
  used (Node's `path.sep` on POSIX hosts).
* JS `Date` instants are modelled as epoch *seconds* (`Int`); the engine's
  timestamps have second resolution (milliseconds are truncated by
  `substring(0, 19)` in `generateBackupPath`).
* The host timezone is a parameter `offW : Int`, the value of JS
  `Date.prototype.getTimezoneOffset` (minutes west of UTC; `0` in UTC,
  `-60` in UTC+1).
* Fallible operations return `Option`/`Except`; filesystem effects are
  modelled as explicit traces of `FsOp` values.
-/

namespace BackupBuddy

/-! Section: Gregorian calendar arithmetic (model of the ECMAScript `Date` built-in)

The engine never implements calendar math itself: it calls
`Date.prototype.toISOString` and `new Date(isoString)`.  Both are specified by
ECMA-262 over the proleptic Gregorian calendar; we model them with the
standard civil-from-days / days-from-civil algorithms.  `cum y` is the number
of days from the start of a 400-year era (which begins on March 1) to the
start of its year-of-era `y`; `yoeOfDoe` recovers the year-of-era from a
day-of-era. -/

/-- Days from the start of a 400-year era to the start of year-of-era `y`
(years begin on March 1 for this internal computation). -/
def cum (y : Nat) : Nat := 365*y + y/4 - y/100

/-- Year-of-era of a day-of-era `doe < 146097`. -/
def yoeOfDoe (doe : Nat) : Nat := (doe - doe/1460 + doe/36524 - doe/146096) / 365

/-- First day-of-era strictly after year-of-era `y` (`146097` for the last year). -/
def upper (y : Nat) : Nat := if y = 399 then 146097 else cum (y+1)

/-- Civil month (1–12) of a day-of-year in the March-based year (0 = March 1). -/
def monthOfDoy (doy : Nat) : Nat :=
  let mp := (5*doy + 2)/153
  if mp < 10 then mp + 3 else mp - 9

/-- Civil day of month (1–31) of a day-of-year in the March-based year. -/
def dayOfDoy (doy : Nat) : Nat := doy - (153*((5*doy + 2)/153) + 2)/5 + 1

/-- Day-of-year in the March-based year of a civil month/day. -/
def doyOfMD (m d : Nat) : Nat := (153*(if m > 2 then m - 3 else m + 9) + 2)/5 + d - 1

/-- Year-of-era, month and day of a day-of-era `doe < 146097`. -/
def civilFromDoe (doe : Nat) : Nat × Nat × Nat :=
  let yoe := yoeOfDoe doe
  let doy := doe - cum yoe
  (yoe, monthOfDoy doy, dayOfDoy doy)

/-- A calendar date-time at second resolution (model of the fields a JS `Date`
exposes; `year` may be negative or beyond 9999 in general). -/
structure DateTime where
  year : Int
  month : Nat
  day : Nat
  hour : Nat
  minute : Nat
  second : Nat
deriving DecidableEq, Repr

/-- Days since 1970-01-01 of a civil date (proleptic Gregorian). -/
def daysFromCivil (y : Int) (m d : Nat) : Int :=
  let yy := if m ≤ 2 then y - 1 else y
  let era := yy / 400
  let yoe := (yy % 400).toNat
  era * 146097 + ((cum yoe + doyOfMD m d : Nat) : Int) - 719468

/-- Civil date of a number of days since 1970-01-01. -/
def civilFromDays (z : Int) : Int × Nat × Nat :=
  let zz := z + 719468
  let era := zz / 146097
  let doe := (zz % 146097).toNat
  let t := civilFromDoe doe
  (era * 400 + t.1 + (if t.2.1 ≤ 2 then 1 else 0), t.2.1, t.2.2)

/-- Gregorian leap-year test. -/
def isLeapYear (y : Int) : Bool :=
  y % 4 == 0 && (y % 100 != 0 || y % 400 == 0)

/-- Number of days of month `m` in year `y`. -/
def daysInMonth (y : Int) (m : Nat) : Nat :=
  if m = 2 then (if isLeapYear y then 29 else 28)
  else if m = 4 ∨ m = 6 ∨ m = 9 ∨ m = 11 then 30 else 31

/-- UTC calendar fields of an epoch-seconds instant (the fields
`Date.prototype.toISOString` prints). -/
def civilOfEpoch (e : Int) : DateTime :=
  ⟨(civilFromDays (e / 86400)).1, (civilFromDays (e / 86400)).2.1,
   (civilFromDays (e / 86400)).2.2, (e % 86400).toNat / 3600,
   ((e % 86400).toNat % 3600) / 60, (e % 86400).toNat % 60⟩

/-- Epoch seconds of civil fields read as UTC (hour 24 denotes end of day). -/
def epochOfCivil (dt : DateTime) : Int :=
  86400 * daysFromCivil dt.year dt.month dt.day +
    (3600 * (dt.hour : Int) + 60 * (dt.minute : Int) + (dt.second : Int))

/-- ECMAScript validity of `YYYY-MM-DDTHH:MM:SS` fields: `new Date(iso)` yields
an Invalid Date exactly when some field is out of bounds; hour 24 is permitted
as end-of-day when minutes and seconds are zero. -/
def ValidFields (dt : DateTime) : Prop :=
  1 ≤ dt.month ∧ dt.month ≤ 12 ∧ 1 ≤ dt.day ∧ dt.day ≤ daysInMonth dt.year dt.month ∧
  (dt.hour ≤ 23 ∨ (dt.hour = 24 ∧ dt.minute = 0 ∧ dt.second = 0)) ∧
  dt.minute ≤ 59 ∧ dt.second ≤ 59

instance (dt : DateTime) : Decidable (ValidFields dt) := by
  unfold ValidFields
  infer_instance

/-! Section: The timestamp token: encoding (model of `generateBackupPath`, lines 593–601)

`generateBackupPath` builds the token as
`new Date().toISOString().replace(/[:.]/g, "-").replace("T", "_").substring(0, 19)`.
We model `toISOString` character-exactly for instants with four-digit years and
zero milliseconds, then apply the two replacements and the truncation. -/

/-- Decimal digit character of `x % 10`. -/
def dchar (x : Nat) : Char := Nat.digitChar (x % 10)

/-- Two-digit zero-padded decimal (for `n < 100`). -/
def pad2 (n : Nat) : List Char := [dchar (n / 10), dchar n]

/-- Four-digit zero-padded decimal (for `n < 10000`). -/
def pad4 (n : Nat) : List Char := [dchar (n / 1000), dchar (n / 100), dchar (n / 10), dchar n]

/-- The 24 characters of `Date.prototype.toISOString` for a UTC instant with a
four-digit year and zero milliseconds: `YYYY-MM-DDTHH:MM:SS.000Z`. -/
def toISOChars (dt : DateTime) : List Char :=
  pad4 dt.year.toNat ++ '-' :: pad2 dt.month ++ '-' :: pad2 dt.day ++
  'T' :: pad2 dt.hour ++ ':' :: pad2 dt.minute ++ ':' :: pad2 dt.second ++
  '.' :: '0' :: '0' :: '0' :: ['Z']

/-- Model of `.replace(/[:.]/g, "-")` (global, single characters). -/
def replaceColonsDots (cs : List Char) : List Char :=
  cs.map fun c => if c = ':' ∨ c = '.' then '-' else c

/-- Model of `.replace("T", "_")` with a string pattern (first occurrence only). -/
def replaceFirstT : List Char → List Char
  | [] => []
  | c :: rest => if c = 'T' then '_' :: rest else c :: replaceFirstT rest

/-- The timestamp token embedded into a backup file name:
`toISOString().replace(/[:.]/g,"-").replace("T","_").substring(0,19)`. -/
def timestampToken (dt : DateTime) : List Char :=
  (replaceFirstT (replaceColonsDots (toISOChars dt))).take 19

/-- The same token in explicit `YYYY-MM-DD_HH-MM-SS` form. -/
def tokenChars (dt : DateTime) : List Char :=
  pad4 dt.year.toNat ++ '-' :: pad2 dt.month ++ '-' :: pad2 dt.day ++
  '_' :: pad2 dt.hour ++ '-' :: pad2 dt.minute ++ '-' :: pad2 dt.second

/-! Section: The timestamp token: decoding (model of `extractTimestampFromBackup`, lines 479–497)

The source matches the anchored regex
`\.(\d{4}-\d{2}-\d{2}_\d{2}-\d{2}-\d{2})\.bak$`, splits the captured token at
`'_'`, turns the dashes of the time part back into colons, and evaluates
`new Date(datePart + "T" + timePart)`, returning `null` when the regex fails
or the date is invalid (`isNaN(date.getTime())`). -/

/-- Numeric value of a digit character. -/
def charDigit (c : Char) : Nat := c.toNat - 48

/-- Value of two decimal digit characters. -/
def parse2 (a b : Char) : Nat := 10 * charDigit a + charDigit b

/-- Value of four decimal digit characters. -/
def parse4 (a b c d : Char) : Nat :=
  1000 * charDigit a + 100 * charDigit b + 10 * charDigit c + charDigit d

/-- Fields of a well-shaped `YYYY-MM-DD_HH-MM-SS` token (the capture group of
the regex, including the digit classes and the fixed separators). -/
def tokenFields (t : List Char) : Option DateTime :=
  match t with
  | [y1, y2, y3, y4, c1, o1, o2, c2, d1, d2, c3, h1, h2, c4, i1, i2, c5, s1, s2] =>
    if c1 = '-' ∧ c2 = '-' ∧ c3 = '_' ∧ c4 = '-' ∧ c5 = '-' ∧
        y1.isDigit ∧ y2.isDigit ∧ y3.isDigit ∧ y4.isDigit ∧ o1.isDigit ∧ o2.isDigit ∧
        d1.isDigit ∧ d2.isDigit ∧ h1.isDigit ∧ h2.isDigit ∧ i1.isDigit ∧ i2.isDigit ∧
        s1.isDigit ∧ s2.isDigit then
      some ⟨(parse4 y1 y2 y3 y4 : Nat), parse2 o1 o2, parse2 d1 d2,
            parse2 h1 h2, parse2 i1 i2, parse2 s1 s2⟩
    else none
  | _ => none

/-- Model of `new Date(isoString)` for a timezone-less `YYYY-MM-DDTHH:MM:SS`
string: an invalid-fields string yields an Invalid Date (`none`); otherwise the
fields are interpreted as local wall-clock time, i.e. the epoch is shifted by
`offW` minutes (the value of `getTimezoneOffset`). -/
def jsDateFromFields (offW : Int) (dt : DateTime) : Option Int :=
  if ValidFields dt then some (epochOfCivil dt + 60 * offW) else none

/-- The part of `extractTimestampFromBackup` that runs after the `.bak` suffix
has been stripped: the last 19 characters must form a well-shaped token
preceded by a literal dot. -/
def extractFromBody (offW : Int) (body : List Char) : Option Int :=
  if 20 ≤ body.length then
    match tokenFields (body.drop (body.length - 19)) with
    | some dt =>
      if body[body.length - 20]? = some '.' then jsDateFromFields offW dt else none
    | none => none
  else none

/-- Model of `extractTimestampFromBackup`: the anchored regex
`\.(\d{4}-\d{2}-\d{2}_\d{2}-\d{2}-\d{2})\.bak$`, then
`new Date(datePart + "T" + timePart with dashes turned into colons)`;
`null` becomes `none`. -/
def extractTimestampFromBackup (offW : Int) (name : List Char) : Option Int :=
  if (".bak".data).isSuffixOf name then
    extractFromBody offW (name.take (name.length - 4))
  else none

/-- The backup file name generated for original file name `fileName` at capture
instant `e` (the tail of `generateBackupPath`):
`` `${fileName}.${timestamp}.bak` ``. -/
def backupFileNameOf (fileName : List Char) (e : Int) : List Char :=
  fileName ++ '.' :: timestampToken (civilOfEpoch e) ++ ".bak".data

/-- An instant whose UTC year has four digits, i.e. whose `toISOString`
rendering matches the `\d{4}` year class of the decoder regex. -/
def YearInRange (e : Int) : Prop :=
  0 ≤ (civilOfEpoch e).year ∧ (civilOfEpoch e).year ≤ 9999

instance (e : Int) : Decidable (YearInRange e) := by
  unfold YearInRange
  infer_instance

/-! Section: Paths (models of the Node `path` POSIX built-ins used by the engine)

Paths are `List Char` with separator `'/'`.  `pathNormalize`, `pathResolve`,
`pathJoin`, `pathRelative`, `dirname`, `basenameChars` and `extname` model
`path.normalize`, `path.resolve` (with an explicit current directory),
`path.join`, `path.relative`, `path.dirname`, `path.basename` and
`path.extname` for POSIX paths (double-slash roots excepted). -/

/-- String literal helper. -/
def chars (s : String) : List Char := s.data

/-- ASCII model of `String.prototype.toLowerCase`. -/
def jsToLower (c : Char) : Char :=
  if 'A' ≤ c ∧ c ≤ 'Z' then Char.ofNat (c.toNat + 32) else c

/-- Is a character trimmed by `String.prototype.trim`? -/
def jsWhite (c : Char) : Bool :=
  c = ' ' ∨ c = '\t' ∨ c = '\n' ∨ c = '\r'

/-- Model of `String.prototype.trim`. -/
def jsTrim (s : List Char) : List Char :=
  ((s.dropWhile jsWhite).reverse.dropWhile jsWhite).reverse

/-- One step of Node's `normalizeString`: fold the next path segment onto the
(reversed) accumulated segment list, resolving `.` and `..`. -/
def normStep (allowAboveRoot : Bool) (acc : List (List Char)) (seg : List Char) :
    List (List Char) :=
  if seg = [] ∨ seg = ['.'] then acc
  else if seg = ['.', '.'] then
    match acc with
    | top :: rest =>
      if top = ['.', '.'] then (if allowAboveRoot then seg :: acc else acc) else rest
    | [] => if allowAboveRoot then [seg] else []
  else seg :: acc

/-- Join segments with `'/'`. -/
def joinSegs (ss : List (List Char)) : List Char := List.intercalate ['/'] ss

/-- Model of `path.normalize` (POSIX). -/
def pathNormalize (p : List Char) : List Char :=
  if p = [] then ['.']
  else
    let isAbs := p.head? = some '/'
    let trailing := p.getLast? = some '/'
    let core := joinSegs (((p.splitOn '/').foldl (normStep (!isAbs)) []).reverse)
    if core = [] then
      (if isAbs then ['/'] else if trailing then ['.', '/'] else ['.'])
    else
      (if isAbs then '/' :: core else core) ++ (if trailing then ['/'] else [])

/-- Model of `path.isAbsolute` (POSIX). -/
def isAbsolutePath (p : List Char) : Bool := p.head? = some '/'

/-- Model of `path.resolve` relative to a current working directory `cwd`
(assumed absolute). -/
def pathResolve (cwd p : List Char) : List Char :=
  let full := if p.head? = some '/' then p else cwd ++ '/' :: p
  let core := joinSegs (((full.splitOn '/').foldl (normStep false) []).reverse)
  if core = [] then ['/'] else '/' :: core

/-- Model of `path.join` for two parts. -/
def pathJoin (a b : List Char) : List Char :=
  if a = [] ∧ b = [] then ['.']
  else if a = [] then pathNormalize b
  else if b = [] then pathNormalize a
  else pathNormalize (a ++ '/' :: b)

/-- Model of `path.dirname` (POSIX). -/
def dirname (p : List Char) : List Char :=
  if p = [] then ['.']
  else
    let r2 := (p.reverse.dropWhile (fun c => c = '/')).dropWhile (fun c => c ≠ '/')
    if r2.drop 1 = [] then (if p.head? = some '/' then ['/'] else ['.'])
    else (r2.drop 1).reverse

/-- Model of `path.basename` (POSIX). -/
def basenameChars (p : List Char) : List Char :=
  ((p.reverse.dropWhile (fun c => c = '/')).takeWhile (fun c => c ≠ '/')).reverse

/-- Model of `path.extname` (POSIX): the suffix of the base name from its last
dot, unless that dot is its first character. -/
def extname (p : List Char) : List Char :=
  let r := p.reverse.takeWhile (fun c => c ≠ '/')
  if '.' ∈ r then
    let pre := r.takeWhile (fun c => c ≠ '.')
    if pre.length + 1 < r.length then '.' :: pre.reverse else []
  else []

/-- Length of the common prefix of two segment lists. -/
def commonPrefixLen : List (List Char) → List (List Char) → Nat
  | a :: as, b :: bs => if a = b then 1 + commonPrefixLen as bs else 0
  | _, _ => 0

/-- Model of `path.relative` (POSIX) with an explicit current directory. -/
def pathRelative (cwd src dst : List Char) : List Char :=
  let f := pathResolve cwd src
  let t := pathResolve cwd dst
  if f = t then []
  else
    let fs := (f.splitOn '/').filter (fun s => s ≠ [])
    let ts := (t.splitOn '/').filter (fun s => s ≠ [])
    let k := commonPrefixLen fs ts
    joinSegs (List.replicate (fs.length - k) ['.', '.'] ++ ts.drop k)

/-! Section: Validators (model of `validation.ts`) -/

/-- The `code` strings carried by `ValidationError`. -/
inductive ValidationError where
  | INVALID_PATH
  | DIRECTORY_TRAVERSAL
  | RELATIVE_PATH
  | NULL_BYTE
  | SYSTEM_DIRECTORY
  | BACKUP_DIRECTORY_FILE
  | NOT_A_FILE
  | FILE_TOO_LARGE
  | FILE_NOT_READABLE
  | NOT_BACKUP_FILE
  | VALIDATION_FAILED
deriving DecidableEq, Repr

/-- Model of `String.prototype.includes`. -/
def jsIncludes (s pat : List Char) : Bool := decide (pat <:+: s)

/-- Model of `FileValidator.validateFilePath` (`validation.ts` lines 27–51). -/
def validateFilePath (filePath : List Char) : Except ValidationError Unit :=
  if filePath = [] then .error .INVALID_PATH
  else if jsIncludes (pathNormalize filePath) ['.', '.'] = true ∨
      '~' ∈ pathNormalize filePath then
    .error .DIRECTORY_TRAVERSAL
  else if ¬ (isAbsolutePath (pathNormalize filePath) = true) then .error .RELATIVE_PATH
  else if Char.ofNat 0 ∈ pathNormalize filePath then .error .NULL_BYTE
  else .ok ()

/-- The system-directory denylist of `validateBackupDirectory`. -/
def systemDirs : List (List Char) :=
  [chars "c:\\windows", chars "c:\\program files", chars "c:\\program files (x86)",
   chars "/etc", chars "/usr", chars "/var"]

/-- Model of `FileValidator.validateBackupDirectory` (`validation.ts` lines 56–73). -/
def validateBackupDirectory (dirPath : List Char) : Except ValidationError Unit :=
  match validateFilePath dirPath with
  | .error e => .error e
  | .ok _ =>
    if systemDirs.any (fun d => d.isPrefixOf ((pathNormalize dirPath).map jsToLower)) then
      .error .SYSTEM_DIRECTORY
    else .ok ()

/-- The backup-directory patterns of `validateNotInBackupDirectory`
(each built with `path.sep`). -/
def backupPatterns : List (List Char) :=
  [chars "/.vscode/backups/", chars "/backups/", chars "/.backup/", chars "/backup/"]

/-- Model of `FileValidator.validateNotInBackupDirectory`
(`validation.ts` lines 79–106). -/
def validateNotInBackupDirectory (filePath : List Char) : Except ValidationError Unit :=
  if backupPatterns.any
      (fun pat => jsIncludes ((pathNormalize filePath).map jsToLower) (pat.map jsToLower)) = true ∨
      (extname filePath).map jsToLower = chars ".bak" then
    .error .BACKUP_DIRECTORY_FILE
  else .ok ()

/-! Section: Backup path derivation (model of `generateBackupPath`, lines 546–602,
and the matching directory derivation in `findLatestBackup`, lines 404–447) -/

/-- Configuration surface (`fileBackup.*` settings). -/
structure Config where
  backupDirectory : List Char
  preserveFolderStructure : Bool
  autoCleanup : Bool
  cleanupDays : Int

/-- Host environment: current directory, the workspace-folder lookup
(`vscode.workspace.getWorkspaceFolder`) and the open workspace folders. -/
structure Env where
  cwd : List Char
  workspaceFolder : List Char → Option (List Char)
  workspaceFolders : List (List Char)

/-- Resolution of a configured custom backup directory:
used verbatim when absolute, `path.resolve`d otherwise. -/
def resolveCustomDir (env : Env) (c : List Char) : List Char :=
  if isAbsolutePath c = true then c else pathResolve env.cwd c

/-- Is the custom backup directory configured (truthy and non-blank)?
This is the `customBackupDir && customBackupDir.trim()` test. -/
def customDirActive (cfg : Config) : Bool :=
  cfg.backupDirectory ≠ [] ∧ jsTrim cfg.backupDirectory ≠ []

/-- The backup root chosen by `generateBackupPath`: the custom directory when
configured, else `<workspace>/.vscode/backups`, else `<sourceDir>/backups`. -/
def backupRootForWrite (cfg : Config) (env : Env) (filePath : List Char) : List Char :=
  if customDirActive cfg = true then resolveCustomDir env cfg.backupDirectory
  else
    match env.workspaceFolder filePath with
    | some ws => pathJoin (pathJoin ws (chars ".vscode")) (chars "backups")
    | none => pathJoin (dirname filePath) (chars "backups")

/-- The backup root consulted by `findLatestBackup`: as `backupRootForWrite`,
except that without a workspace the search is abandoned (`return null`). -/
def backupRootForRead (cfg : Config) (env : Env) (filePath : List Char) :
    Option (List Char) :=
  if customDirActive cfg = true then some (resolveCustomDir env cfg.backupDirectory)
  else
    match env.workspaceFolder filePath with
    | some ws => some (pathJoin (pathJoin ws (chars ".vscode")) (chars "backups"))
    | none => none

/-- Mirroring of the source directory structure beneath the root
(the `preserveFolderStructure` block, identical in both functions). -/
def withPreservedStructure (cfg : Config) (env : Env) (filePath dir : List Char) :
    List Char :=
  if cfg.preserveFolderStructure then
    match env.workspaceFolder filePath with
    | some ws =>
      let rel := pathRelative env.cwd ws (dirname filePath)
      if rel ≠ [] ∧ ¬ (['.', '.'].isPrefixOf rel = true) then pathJoin dir rel else dir
    | none => dir
  else dir

/-- Full model of `generateBackupPath` at capture instant `e`. -/
def generateBackupPath (cfg : Config) (env : Env) (filePath : List Char) (e : Int) :
    List Char :=
  pathJoin (withPreservedStructure cfg env filePath (backupRootForWrite cfg env filePath))
    (backupFileNameOf (basenameChars filePath) e)

/-- The directory `findLatestBackup` enumerates. -/
def findBackupDir (cfg : Config) (env : Env) (filePath : List Char) : Option (List Char) :=
  (backupRootForRead cfg env filePath).map (withPreservedStructure cfg env filePath)

/-! Section: Ranking backup candidates (model of `findLatestBackup`, lines 449–467) -/

/-- The candidate filter:
`file.startsWith(fileName + ".") && file.endsWith(".bak")`. -/
def candidateFilter (fileName f : List Char) : Bool :=
  (fileName ++ ['.']).isPrefixOf f && (chars ".bak").isSuffixOf f

/-- First element with maximal timestamp — the head of the stable sort by
`(a, b) => b.timestamp - a.timestamp` (descending, ties in listing order). -/
def pickMax : List (List Char × Int) → Option (List Char × Int)
  | [] => none
  | p :: rest =>
    match pickMax rest with
    | none => some p
    | some q => if q.2 > p.2 then some q else some p

/-- The candidate-ranking core of `findLatestBackup` over a directory listing:
filter by name shape, decode timestamps, drop entries whose token does not
decode, and return the name with the greatest decoded timestamp. -/
def findLatestInDir (offW : Int) (files : List (List Char)) (fileName : List Char) :
    Option (List Char) :=
  (pickMax ((files.filter (candidateFilter fileName)).filterMap
    (fun f => (extractTimestampFromBackup offW f).map (fun t => (f, t))))).map
    (fun p => p.1)

/-! Section: Filesystem model -/

/-- A filesystem node: a regular file (with last-modified time, size and
readability) or a directory with named entries. -/
inductive FsNode where
  | file (mtime : Int) (size : Int) (readable : Bool)
  | dir (entries : List (List Char × FsNode))

/-- A filesystem: the node found at an absolute path, if any. -/
structure FileSystem where
  node : List Char → Option FsNode

/-- Well-formedness of directory listings: a `readdir` entry is a bare file
name, never a path, so it does not contain the separator `'/'`. -/
def FsWellFormed (fs : FileSystem) : Prop :=
  ∀ d entries, fs.node d = some (.dir entries) → ∀ en ∈ entries, ('/' : Char) ∉ en.1

/-- Filesystem operations, recorded as traces by the operation models. -/
inductive FsOp where
  | statOp (p : List Char)
  | accessOp (p : List Char)
  | readdirOp (p : List Char)
  | readOp (p : List Char)
  | writeOp (p : List Char)
  | mkdirOp (p : List Char)
  | unlinkOp (p : List Char)
  | rmdirOp (p : List Char)
deriving DecidableEq, Repr

/-- Is this operation a write to path `p`? -/
def FsOp.isWriteTo (p : List Char) : FsOp → Bool
  | .writeOp q => q = p
  | _ => false

/-- Is this operation any write at all? -/
def FsOp.isWrite : FsOp → Bool
  | .writeOp _ => true
  | _ => false

/-- Model of `findLatestBackup` (lines 404–472): resolve the directory, check
its existence, list it and rank the candidates.  Returns the full path of the
latest backup together with the filesystem trace.  Any error on the way makes
the function return `null`. -/
def findLatestBackupModel (cfg : Config) (env : Env) (offW : Int) (fs : FileSystem)
    (filePath : List Char) : Option (List Char) × List FsOp :=
  match findBackupDir cfg env filePath with
  | none => (none, [])
  | some dir =>
    match fs.node dir with
    | none => (none, [.accessOp dir])
    | some (.file _ _ _) => (none, [.accessOp dir, .readdirOp dir])
    | some (.dir entries) =>
      ((findLatestInDir offW (entries.map (fun en => en.1)) (basenameChars filePath)).map
        (pathJoin dir), [.accessOp dir, .readdirOp dir])

/-! Section: Retention sweep (model of `cleanupOldBackupsInDirectory`, lines 697–755,
and `cleanupEmptyDirectories`, lines 789–828) -/

/-- The `Math.max(1, Math.min(365, cleanupDays))` clamp. -/
def clampDays (d : Int) : Int := max 1 (min 365 d)

/-- Is `dir` the main backup directory that `cleanupEmptyDirectories`
preserves?  Note the bare truthiness test on `customBackupDir` (no trim). -/
def isMainBackupDir (cfg : Config) (env : Env) (dir : List Char) : Bool :=
  if cfg.backupDirectory ≠ [] then
    pathResolve env.cwd cfg.backupDirectory = pathResolve env.cwd dir
  else (chars ".vscode/backups").isSuffixOf dir

/-- One deletion pass of the sweep over a directory subtree: removes every
regular file whose name ends in `.bak`, whose last-modified time is before the
cutoff and whose extension re-verifies as `.bak`. -/
def deleteOldEntries (cutoff : Int) (dirPath : List Char) :
    List (List Char × FsNode) → List (List Char × FsNode)
  | [] => []
  | (n, .file m sz r) :: rest =>
    if (chars ".bak").isSuffixOf n ∧ m < cutoff ∧
        (extname (pathJoin dirPath n)).map jsToLower = chars ".bak" then
      deleteOldEntries cutoff dirPath rest
    else (n, .file m sz r) :: deleteOldEntries cutoff dirPath rest
  | (n, .dir sub) :: rest =>
    (n, .dir (deleteOldEntries cutoff (pathJoin dirPath n) sub)) ::
      deleteOldEntries cutoff dirPath rest

/-- Number of files the deletion pass removes. -/
def deleteOldCount (cutoff : Int) (dirPath : List Char) :
    List (List Char × FsNode) → Nat
  | [] => 0
  | (n, .file m _ _) :: rest =>
    (if (chars ".bak").isSuffixOf n ∧ m < cutoff ∧
        (extname (pathJoin dirPath n)).map jsToLower = chars ".bak" then 1 else 0) +
      deleteOldCount cutoff dirPath rest
  | (n, .dir sub) :: rest =>
    deleteOldCount cutoff (pathJoin dirPath n) sub + deleteOldCount cutoff dirPath rest

/-- Recursive pruning of emptied subdirectories (`cleanupEmptyDirectories`):
children are cleaned depth-first, and a subdirectory that is then empty is
removed unless it is the main backup directory. -/
def cleanupEntriesRec (cfg : Config) (env : Env) (dirPath : List Char) :
    List (List Char × FsNode) → List (List Char × FsNode)
  | [] => []
  | (n, .file m sz r) :: rest => (n, .file m sz r) :: cleanupEntriesRec cfg env dirPath rest
  | (n, .dir sub) :: rest =>
    let sub2 := cleanupEntriesRec cfg env (pathJoin dirPath n) sub
    if sub2.length = 0 ∧ ¬ (isMainBackupDir cfg env (pathJoin dirPath n) = true) then
      cleanupEntriesRec cfg env dirPath rest
    else (n, .dir sub2) :: cleanupEntriesRec cfg env dirPath rest

/-- Model of `cleanupEmptyDirectories dir`: returns `none` when the directory
itself is removed (`fs.rmdir(dir)`), else the cleaned directory. -/
def cleanupEmptyDirectories (cfg : Config) (env : Env) (dirPath : List Char) :
    FsNode → Option FsNode
  | .file m sz r => some (.file m sz r)
  | .dir entries =>
    let e2 := cleanupEntriesRec cfg env dirPath entries
    if e2.length = 0 ∧ ¬ (isMainBackupDir cfg env dirPath = true) then none
    else some (.dir e2)

/-- Model of `cleanupOldBackupsInDirectory`: the resulting state of the swept
directory (`none` when it was removed) and the number of deleted files. -/
def cleanupOldBackupsInDirectoryModel (cfg : Config) (env : Env) (now : Int)
    (dirPath : List Char) : Option FsNode → Option FsNode × Nat
  | none => (none, 0)
  | some (.file m sz r) => (some (.file m sz r), 0)
  | some (.dir entries) =>
    let cutoff := now - clampDays cfg.cleanupDays * 86400
    let entries2 := deleteOldEntries cutoff dirPath entries
    (cleanupEmptyDirectories cfg env dirPath (.dir entries2),
     deleteOldCount cutoff dirPath entries)

/-- The roots swept by the `cleanupOldBackups` command: the custom directory
when configured, else `.vscode/backups` in every workspace folder. -/
def cleanupRoots (cfg : Config) (env : Env) : List (List Char) :=
  if customDirActive cfg = true then [resolveCustomDir env cfg.backupDirectory]
  else env.workspaceFolders.map
    (fun ws => pathJoin (pathJoin ws (chars ".vscode")) (chars "backups"))

/-! Section: Operation models with filesystem traces (model of `backupFile`,
lines 38–124, and `rollbackFile`, lines 152–246)

`activeOperations` is the set of source paths with an operation in flight;
both operations test membership first, add the path before any asynchronous
work, and remove it in a `finally`.  The returned state is the state after
the `finally`; the intermediate locked state is `p :: st`
(see `tryBeginOperation`). -/

/-- The `MAX_FILE_SIZE` limit of `FileValidator` (100 MB). -/
def maxFileSize : Int := 100 * 1024 * 1024

/-- Model of `validateFileForBackup` (`validation.ts` lines 111–153): path and
loop-prevention validation, then stat, size and readability checks. -/
def validateFileForBackupModel (fs : FileSystem) (p : List Char) :
    Except ValidationError Unit × List FsOp :=
  match validateFilePath p with
  | .error e => (.error e, [])
  | .ok _ =>
    match validateNotInBackupDirectory p with
    | .error e => (.error e, [])
    | .ok _ =>
      match fs.node p with
      | none => (.error .VALIDATION_FAILED, [.statOp p])
      | some (.dir _) => (.error .NOT_A_FILE, [.statOp p])
      | some (.file _ sz r) =>
        if sz > maxFileSize then (.error .FILE_TOO_LARGE, [.statOp p])
        else if r = false then (.error .FILE_NOT_READABLE, [.statOp p, .accessOp p])
        else (.ok (), [.statOp p, .accessOp p])

/-- Model of `validateBackupFileForRollback` (`validation.ts` lines 194–233). -/
def validateBackupFileForRollbackModel (fs : FileSystem) (q : List Char) :
    Except ValidationError Unit × List FsOp :=
  match validateFilePath q with
  | .error e => (.error e, [])
  | .ok _ =>
    match fs.node q with
    | none => (.error .VALIDATION_FAILED, [.statOp q])
    | some (.dir _) => (.error .NOT_A_FILE, [.statOp q])
    | some (.file _ sz r) =>
      if sz > maxFileSize then (.error .FILE_TOO_LARGE, [.statOp q])
      else if ¬ ((extname q).map jsToLower = chars ".bak") then
        (.error .NOT_BACKUP_FILE, [.statOp q])
      else if r = false then (.error .FILE_NOT_READABLE, [.statOp q, .accessOp q])
      else (.ok (), [.statOp q, .accessOp q])

/-- The per-path mutual-exclusion gate: `activeOperations.has` followed by
`activeOperations.add`. -/
def tryBeginOperation (st : List (List Char)) (p : List Char) :
    Option (List (List Char)) :=
  if p ∈ st then none else some (p :: st)

/-- Outcome of a capture request. -/
inductive BackupOutcome where
  | busy
  | validationFailed (e : ValidationError)
  | cancelled
  | success (backupPath : List Char)
deriving DecidableEq, Repr

/-- Outcome of a restore request. -/
inductive RollbackOutcome where
  | busy
  | noBackupFound
  | declined
  | cancelled
  | validationFailed (e : ValidationError)
  | success
deriving DecidableEq, Repr

/-- Model of `ensureDirectoryExists`. -/
def ensureDirOps (fs : FileSystem) (d : List Char) : List FsOp :=
  match fs.node d with
  | some _ => [.accessOp d]
  | none => [.accessOp d, .mkdirOp d]

/-- Filesystem trace of the deletion pass of the sweep. -/
def sweepOpsEntries (cutoff : Int) (dirPath : List Char) :
    List (List Char × FsNode) → List FsOp
  | [] => []
  | (n, .file m _ _) :: rest =>
    (if (chars ".bak").isSuffixOf n then
      FsOp.statOp (pathJoin dirPath n) ::
        (if m < cutoff ∧ (extname (pathJoin dirPath n)).map jsToLower = chars ".bak" then
          [FsOp.unlinkOp (pathJoin dirPath n)]
        else [])
    else []) ++ sweepOpsEntries cutoff dirPath rest
  | (n, .dir sub) :: rest =>
    FsOp.readdirOp (pathJoin dirPath n) ::
      (sweepOpsEntries cutoff (pathJoin dirPath n) sub ++ sweepOpsEntries cutoff dirPath rest)

/-- Filesystem trace of the directory-pruning pass of the sweep. -/
def rmdirOpsEntries (cfg : Config) (env : Env) (dirPath : List Char) :
    List (List Char × FsNode) → List FsOp
  | [] => []
  | (_, .file _ _ _) :: rest => rmdirOpsEntries cfg env dirPath rest
  | (n, .dir sub) :: rest =>
    (FsOp.readdirOp (pathJoin dirPath n) ::
      (rmdirOpsEntries cfg env (pathJoin dirPath n) sub ++
        (if (cleanupEntriesRec cfg env (pathJoin dirPath n) sub).length = 0 ∧
            ¬ (isMainBackupDir cfg env (pathJoin dirPath n) = true) then
          [FsOp.rmdirOp (pathJoin dirPath n)]
        else []))) ++ rmdirOpsEntries cfg env dirPath rest

/-- Filesystem trace of `cleanupOldBackupsInDirectory`. -/
def sweepOps (cfg : Config) (env : Env) (now : Int) (dirPath : List Char) :
    Option FsNode → List FsOp
  | none => [.accessOp dirPath]
  | some (.file _ _ _) => [.accessOp dirPath, .readdirOp dirPath]
  | some (.dir entries) =>
    let cutoff := now - clampDays cfg.cleanupDays * 86400
    let entries2 := deleteOldEntries cutoff dirPath entries
    [FsOp.accessOp dirPath, FsOp.readdirOp dirPath] ++
      sweepOpsEntries cutoff dirPath entries ++
      [FsOp.readdirOp dirPath] ++
      rmdirOpsEntries cfg env dirPath entries2 ++
      (if (cleanupEntriesRec cfg env dirPath entries2).length = 0 ∧
          ¬ (isMainBackupDir cfg env dirPath = true) then
        [FsOp.rmdirOp dirPath]
      else [])

/-- Model of `backupFile`: the busy fast path, lock acquisition, the four
progress steps and optional auto-cleanup, with the lock released on every
exit path (the returned state equals the input state). -/
def backupFileModel (cfg : Config) (env : Env) (fs : FileSystem) (now : Int)
    (cancel : Bool) (st : List (List Char)) (docPath : List Char) :
    List (List Char) × BackupOutcome × List FsOp :=
  if docPath ∈ st then (st, .busy, [])
  else
    match validateFileForBackupModel fs docPath with
    | (.error e, ops) => (st, .validationFailed e, ops)
    | (.ok _, ops1) =>
      if cancel then (st, .cancelled, ops1)
      else
        match validateBackupDirectory (dirname (generateBackupPath cfg env docPath now)) with
        | .error e => (st, .validationFailed e, ops1)
        | .ok _ =>
          (st, .success (generateBackupPath cfg env docPath now),
            ops1 ++ ensureDirOps fs (dirname (generateBackupPath cfg env docPath now)) ++
            [FsOp.writeOp (generateBackupPath cfg env docPath now)] ++
            (if cfg.autoCleanup then
              sweepOps cfg env now (dirname (generateBackupPath cfg env docPath now))
                (fs.node (dirname (generateBackupPath cfg env docPath now)))
            else []))

/-- Filesystem trace of `showBackupDiagnostics` (read-only probes). -/
def diagnosticsOps (cfg : Config) (env : Env) (fs : FileSystem) (p : List Char) :
    List FsOp :=
  match findBackupDir cfg env p with
  | none => []
  | some dir =>
    match fs.node dir with
    | none => [.accessOp dir]
    | some _ => [.accessOp dir, .readdirOp dir]

/-- Model of `rollbackFile`: busy fast path, search for the latest backup,
diagnostics when none exists, the confirmation prompt, rollback validation,
and finally read-then-overwrite. -/
def rollbackFileModel (cfg : Config) (env : Env) (offW : Int) (fs : FileSystem)
    (confirm : Bool) (cancel : Bool) (st : List (List Char)) (filePath : List Char) :
    List (List Char) × RollbackOutcome × List FsOp :=
  if filePath ∈ st then (st, .busy, [])
  else
    match findLatestBackupModel cfg env offW fs filePath with
    | (none, ops) => (st, .noBackupFound, ops ++ diagnosticsOps cfg env fs filePath)
    | (some latest, ops) =>
      if confirm = false then (st, .declined, ops ++ [FsOp.statOp latest])
      else
        match validateBackupFileForRollbackModel fs latest with
        | (.error e, ops2) => (st, .validationFailed e, ops ++ [FsOp.statOp latest] ++ ops2)
        | (.ok _, ops2) =>
          if cancel then (st, .cancelled, ops ++ [FsOp.statOp latest] ++ ops2)
          else (st, .success,
            ops ++ [FsOp.statOp latest] ++ ops2 ++ [FsOp.readOp latest, FsOp.writeOp filePath])

/-! Section: Helper lemmas -/

/-- Default configuration: no custom directory, structure preserved,
auto-cleanup off, 30 retention days. -/
def cfgDefault : Config := ⟨[], true, false, 30⟩

/-- A host with one workspace folder `/ws` and working directory `/cwd`. -/
def envWS : Env :=
  ⟨chars "/cwd",
   fun p => if (chars "/ws/").isPrefixOf p then some (chars "/ws") else none,
   [chars "/ws"]⟩

/-- A filesystem whose backup directory holds the two snapshots of
`/ws/app.ts` captured at epochs 0 and 86400. -/
def fsTwoCaptures : FileSystem :=
  ⟨fun p =>
    if p = chars "/ws/.vscode/backups" then
      some (.dir [(backupFileNameOf (chars "app.ts") 0, .file 0 10 true),
                  (backupFileNameOf (chars "app.ts") 86400, .file 86400 10 true)])
    else none⟩

/-- Modelled from the spec (§4.5 `findLatest`): a directory entry of the exact
form `<basename(sourcePath)>.<token>.<ext>` — the base name, one dot, a
19-character well-shaped timestamp token, and the `.bak` extension, with
nothing in between. -/
def specExactSnapshotName (base name : List Char) : Bool :=
  (base ++ ['.']).isPrefixOf name && (chars ".bak").isSuffixOf name &&
  (name.length == base.length + 24) &&
  (tokenFields ((name.drop (base.length + 1)).take 19)).isSome

/-- A configuration whose custom directory is a blank string: truthy for the
bare `customBackupDir ?` test in `cleanupEmptyDirectories` but blank for the
`customBackupDir && customBackupDir.trim()` test used everywhere else. -/
def cfgBlank : Config := ⟨chars " ", true, false, 30⟩

/-- A filesystem with no nodes at all. -/
def fsEmpty : FileSystem := ⟨fun _ => none⟩

/-- A configuration whose custom backup directory is the absolute path `/b`. -/
def cfgCustomB : Config := ⟨chars "/b", true, false, 30⟩

/-- A filesystem whose backup directory `/b` holds one snapshot of the
tilde-named file `notes~.txt`. -/
def fsTilde : FileSystem :=
  ⟨fun p =>
    if p = chars "/b" then
      some (.dir [(chars "notes~.txt.2024-01-15_14-30-25.bak", .file 0 10 true)])
    else none⟩

/-! Section: the theorems — one per specification claim, with their
counterexamples and witnesses, preceded by the supporting lemmas. -/

set_option maxRecDepth 10000 in
theorem yoe_ball : ∀ y, y < 400 → yoeOfDoe (cum y) = y ∧ yoeOfDoe (upper y - 1) = y := by
  decide

theorem yoe_mono : ∀ a b, a ≤ b → yoeOfDoe a ≤ yoeOfDoe b := by
  have step : ∀ d, yoeOfDoe d ≤ yoeOfDoe (d+1) := by
    intro d
    unfold yoeOfDoe
    apply Nat.div_le_div_right
    omega
  intro a b h
  induction b with
  | zero =>
    have : a = 0 := by omega
    subst this
    exact le_refl _
  | succ n ih =>
    rcases Nat.lt_or_ge a (n+1) with h' | h'
    · exact le_trans (ih (by omega)) (step n)
    · have : a = n + 1 := by omega
      simp [this]

theorem coverage : ∀ doe, doe < 146097 → ∃ y, y < 400 ∧ cum y ≤ doe ∧ doe < upper y := by
  have h400 : ∀ n, n ≤ 400 → ∀ doe, doe < (if n = 400 then 146097 else cum n) →
      ∃ y, y < n ∧ cum y ≤ doe ∧ doe < upper y := by
    intro n
    induction n with
    | zero =>
      intro _ doe h
      simp [cum] at h
    | succ k ih =>
      intro hk doe h
      rcases Nat.lt_or_ge doe (cum k) with h' | h'
      · have hk' : k ≠ 400 := by omega
        obtain ⟨y, hy1, hy2, hy3⟩ := ih (by omega) doe (by simp [hk']; exact h')
        exact ⟨y, by omega, hy2, hy3⟩
      · refine ⟨k, by omega, h', ?_⟩
        unfold upper
        by_cases h399 : k = 399
        · subst h399
          simp at h ⊢
          omega
        · simp [h399]
          split at h
          · omega
          · exact h
  intro doe h
  exact h400 400 (le_refl _) doe (by simp; omega)

theorem yoe_eq (doe : Nat) (h : doe < 146097) :
    ∃ y, y < 400 ∧ cum y ≤ doe ∧ doe < upper y ∧ yoeOfDoe doe = y := by
  obtain ⟨y, hy, h1, h2⟩ := coverage doe h
  refine ⟨y, hy, h1, h2, ?_⟩
  have hb := yoe_ball y hy
  have l1 : y ≤ yoeOfDoe doe := hb.1 ▸ yoe_mono _ _ h1
  have l2 : yoeOfDoe doe ≤ y := hb.2 ▸ yoe_mono _ _ (by omega)
  omega

set_option maxRecDepth 10000 in
theorem doy_ball : ∀ doy, doy < 366 →
    doyOfMD (monthOfDoy doy) (dayOfDoy doy) = doy ∧
    1 ≤ monthOfDoy doy ∧ monthOfDoy doy ≤ 12 ∧
    1 ≤ dayOfDoy doy ∧ dayOfDoy doy ≤ 31 ∧
    (monthOfDoy doy = 2 → dayOfDoy doy ≤ 29) ∧
    (monthOfDoy doy = 2 → dayOfDoy doy = 29 → doy = 365) ∧
    ((monthOfDoy doy = 4 ∨ monthOfDoy doy = 6 ∨ monthOfDoy doy = 9 ∨ monthOfDoy doy = 11) →
      dayOfDoy doy ≤ 30) := by
  decide

theorem upper_sub (y : Nat) (hy : y < 400) : upper y ≤ cum y + 366 := by
  unfold upper cum
  split
  · subst y
    decide
  · omega

theorem inner_inverse (doe : Nat) (h : doe < 146097) :
    ∃ yoe m d, civilFromDoe doe = (yoe, m, d) ∧
      cum yoe + doyOfMD m d = doe ∧
      yoe ≤ 399 ∧ 1 ≤ m ∧ m ≤ 12 ∧ 1 ≤ d ∧ d ≤ 31 ∧
      (m = 2 → d ≤ 29) ∧
      (m = 2 → d = 29 → doe - cum yoe = 365 ∧ 365 < upper yoe - cum yoe) ∧
      ((m = 4 ∨ m = 6 ∨ m = 9 ∨ m = 11) → d ≤ 30) ∧
      cum yoe ≤ doe ∧ doe < upper yoe := by
  obtain ⟨y, hy, h1, h2, hF⟩ := yoe_eq doe h
  have hdoy : doe - cum y < 366 := by
    have := upper_sub y hy
    omega
  obtain ⟨hrec, hm1, hm2, hd1, hd2, hfeb, hfeb29, h30⟩ := doy_ball (doe - cum y) hdoy
  refine ⟨y, monthOfDoy (doe - cum y), dayOfDoy (doe - cum y), ?_, ?_, by omega,
    hm1, hm2, hd1, hd2, hfeb, ?_, h30, h1, h2⟩
  · unfold civilFromDoe
    rw [hF]
  · omega
  · intro ha hb2
    have := hfeb29 ha hb2
    constructor
    · exact this
    · omega

theorem days_inverse (z : Int) :
    ∃ y m d, civilFromDays z = (y, m, d) ∧ daysFromCivil y m d = z ∧
      1 ≤ m ∧ m ≤ 12 ∧ 1 ≤ d ∧ d ≤ daysInMonth y m := by
  obtain ⟨yoe, m, d, hcd, hrec, hyoe, hm1, hm2, hd1, hd2, hfeb, hfeb29, h30, hcle, hcup⟩ :=
    inner_inverse ((z + 719468) % 146097).toNat (by omega)
  refine ⟨(z + 719468) / 146097 * 400 + (yoe : Int) + (if m ≤ 2 then 1 else 0), m, d,
    ?_, ?_, hm1, hm2, hd1, ?_⟩
  · simp only [civilFromDays]
    rw [hcd]
  · by_cases hm : m ≤ 2
    · simp only [daysFromCivil, if_pos hm]
      have h1 : (((z + 719468) / 146097 * 400 + (yoe : Int) + 1 - 1) % 400).toNat = yoe := by
        omega
      rw [h1]
      omega
    · simp only [daysFromCivil, if_neg hm]
      have h1 : (((z + 719468) / 146097 * 400 + (yoe : Int) + 0) % 400).toNat = yoe := by
        omega
      rw [h1]
      omega
  · by_cases hm2' : m = 2
    · subst hm2'
      have hyr : ((z + 719468) / 146097 * 400 + ((yoe:Nat):Int) + (if (2:Nat) ≤ 2 then 1 else 0))
          = ((z + 719468) / 146097 * 400 + (yoe:Int) + 1) := by
        norm_num
      rw [hyr]
      have hsh : daysInMonth ((z + 719468) / 146097 * 400 + (yoe:Int) + 1) 2
          = if isLeapYear ((z + 719468) / 146097 * 400 + (yoe:Int) + 1) then 29 else 28 := by
        simp [daysInMonth]
      rw [hsh]
      by_cases hl : isLeapYear ((z + 719468) / 146097 * 400 + (yoe:Int) + 1) = true
      · simp only [if_pos hl]
        exact hfeb rfl
      · simp only [if_neg hl]
        rcases Nat.lt_or_ge d 29 with h' | h'
        · omega
        · exfalso
          have hd29 : d = 29 := by omega
          obtain ⟨h365, hlen⟩ := hfeb29 rfl hd29
          apply hl
          simp only [isLeapYear, Bool.and_eq_true, beq_iff_eq, Bool.or_eq_true, bne_iff_ne,
            ne_eq]
          by_cases h399 : yoe = 399
          · subst h399
            constructor
            · omega
            · right
              omega
          · have hup : upper yoe = cum (yoe + 1) := by
              simp [upper, h399]
            rw [hup] at hlen
            unfold cum at hlen
            constructor
            · omega
            · left
              omega
    · have h24 : daysInMonth ((z + 719468) / 146097 * 400 + (yoe:Int) + (if m ≤ 2 then 1 else 0)) m
          = if m = 4 ∨ m = 6 ∨ m = 9 ∨ m = 11 then 30 else 31 := by
        simp [daysInMonth, hm2']
      rw [h24]
      by_cases h4 : m = 4 ∨ m = 6 ∨ m = 9 ∨ m = 11
      · simp only [if_pos h4]
        exact h30 h4
      · simp only [if_neg h4]
        exact hd2

theorem epoch_inverse (e : Int) :
    epochOfCivil (civilOfEpoch e) = e ∧ ValidFields (civilOfEpoch e) ∧
      (civilOfEpoch e).hour ≤ 23 ∧ (civilOfEpoch e).minute ≤ 59 ∧
      (civilOfEpoch e).second ≤ 59 ∧ (civilOfEpoch e).month ≤ 12 ∧
      (civilOfEpoch e).day ≤ 31 := by
  obtain ⟨y, m, d, hcd, hinv, hm1, hm2, hd1, hd2⟩ := days_inverse (e / 86400)
  have hday31 : daysInMonth y m ≤ 31 := by
    unfold daysInMonth
    split
    · split <;> omega
    · split <;> omega
  have hc : civilOfEpoch e =
      ⟨y, m, d, (e % 86400).toNat / 3600, ((e % 86400).toNat % 3600) / 60,
        (e % 86400).toNat % 60⟩ := by
    unfold civilOfEpoch
    rw [hcd]
  rw [hc]
  dsimp only
  have hsod : (e % 86400).toNat < 86400 := by omega
  refine ⟨?_, ⟨hm1, hm2, hd1, hd2, ?_, ?_, ?_⟩, ?_, ?_, ?_, ?_, ?_⟩
  · unfold epochOfCivil
    dsimp only
    rw [hinv]
    omega
  · left
    dsimp only
    omega
  · dsimp only
    omega
  · dsimp only
    omega
  · omega
  · omega
  · omega
  · exact hm2
  · omega

theorem dchar_facts : ∀ j, j < 10 → (Nat.digitChar j).isDigit = true ∧
    Nat.digitChar j ≠ 'T' ∧ Nat.digitChar j ≠ ':' ∧ Nat.digitChar j ≠ '.' := by
  decide

theorem dchar_isDigit (x : Nat) : (dchar x).isDigit = true :=
  (dchar_facts (x % 10) (Nat.mod_lt _ (by norm_num))).1

theorem dchar_ne_T (x : Nat) : dchar x ≠ 'T' :=
  (dchar_facts (x % 10) (Nat.mod_lt _ (by norm_num))).2.1

theorem dchar_ne_colon (x : Nat) : dchar x ≠ ':' :=
  (dchar_facts (x % 10) (Nat.mod_lt _ (by norm_num))).2.2.1

theorem dchar_ne_dot (x : Nat) : dchar x ≠ '.' :=
  (dchar_facts (x % 10) (Nat.mod_lt _ (by norm_num))).2.2.2

theorem replaceColonsDots_dchar (x : Nat) (l : List Char) :
    replaceColonsDots (dchar x :: l) = dchar x :: replaceColonsDots l := by
  simp [replaceColonsDots, dchar_ne_colon, dchar_ne_dot]

theorem replaceColonsDots_lit (c : Char) (hc : ¬(c = ':' ∨ c = '.')) (l : List Char) :
    replaceColonsDots (c :: l) = c :: replaceColonsDots l := by
  simp [replaceColonsDots, hc]

theorem replaceColonsDots_hit (c : Char) (hc : c = ':' ∨ c = '.') (l : List Char) :
    replaceColonsDots (c :: l) = '-' :: replaceColonsDots l := by
  simp [replaceColonsDots, hc]

theorem replaceFirstT_dchar (x : Nat) (l : List Char) :
    replaceFirstT (dchar x :: l) = dchar x :: replaceFirstT l := by
  simp [replaceFirstT, dchar_ne_T]

theorem replaceFirstT_lit (c : Char) (hc : c ≠ 'T') (l : List Char) :
    replaceFirstT (c :: l) = c :: replaceFirstT l := by
  simp [replaceFirstT, hc]

/-- The replace-and-truncate pipeline yields exactly the
`YYYY-MM-DD_HH-MM-SS` token. -/
theorem token_shape (dt : DateTime) : timestampToken dt = tokenChars dt := by
  unfold timestampToken toISOChars tokenChars pad4 pad2
  simp only [List.cons_append, List.nil_append, List.append_assoc]
  rw [replaceColonsDots_dchar, replaceColonsDots_dchar, replaceColonsDots_dchar,
    replaceColonsDots_dchar,
    replaceColonsDots_lit '-' (by decide), replaceColonsDots_dchar, replaceColonsDots_dchar,
    replaceColonsDots_lit '-' (by decide), replaceColonsDots_dchar, replaceColonsDots_dchar,
    replaceColonsDots_lit 'T' (by decide), replaceColonsDots_dchar, replaceColonsDots_dchar,
    replaceColonsDots_hit ':' (by decide), replaceColonsDots_dchar, replaceColonsDots_dchar,
    replaceColonsDots_hit ':' (by decide), replaceColonsDots_dchar, replaceColonsDots_dchar,
    replaceColonsDots_hit '.' (by decide)]
  simp only [replaceColonsDots]
  rw [replaceFirstT_dchar, replaceFirstT_dchar, replaceFirstT_dchar, replaceFirstT_dchar,
    replaceFirstT_lit '-' (by decide), replaceFirstT_dchar, replaceFirstT_dchar,
    replaceFirstT_lit '-' (by decide), replaceFirstT_dchar, replaceFirstT_dchar]
  simp only [replaceFirstT, if_pos rfl]
  simp [List.take]

theorem charDigit_dchar (x : Nat) : charDigit (dchar x) = x % 10 := by
  have h : ∀ j, j < 10 → charDigit (Nat.digitChar j) = j := by decide
  exact h (x % 10) (Nat.mod_lt _ (by norm_num))

theorem parse2_pad2 (n : Nat) (h : n < 100) : parse2 (dchar (n / 10)) (dchar n) = n := by
  simp [parse2, charDigit_dchar]
  omega

theorem parse4_pad4 (n : Nat) (h : n < 10000) :
    parse4 (dchar (n / 1000)) (dchar (n / 100)) (dchar (n / 10)) (dchar n) = n := by
  simp [parse4, charDigit_dchar]
  omega

theorem tokenFields_tokenChars (dt : DateTime)
    (hmo : dt.month < 100) (hd : dt.day < 100) (hh : dt.hour < 100)
    (hmi : dt.minute < 100) (hs : dt.second < 100) (hy4 : dt.year.toNat < 10000) :
    tokenFields (tokenChars dt) =
      some ⟨(dt.year.toNat : Int), dt.month, dt.day, dt.hour, dt.minute, dt.second⟩ := by
  unfold tokenChars pad4 pad2
  simp only [List.cons_append, List.nil_append]
  rw [tokenFields]
  rw [if_pos]
  · simp only [Option.some.injEq]
    rw [parse4_pad4 _ hy4, parse2_pad2 _ hmo, parse2_pad2 _ hd, parse2_pad2 _ hh,
      parse2_pad2 _ hmi, parse2_pad2 _ hs]
  · refine ⟨rfl, rfl, rfl, rfl, rfl, ?_⟩
    simp [dchar_isDigit]

theorem tokenChars_length (dt : DateTime) : (tokenChars dt).length = 19 := by
  unfold tokenChars pad4 pad2
  simp

theorem extract_roundtrip (offW : Int) (base : List Char) (dt : DateTime)
    (hmo : dt.month < 100) (hd : dt.day < 100) (hh : dt.hour < 100)
    (hmi : dt.minute < 100) (hs : dt.second < 100) (hy4 : dt.year.toNat < 10000) :
    extractTimestampFromBackup offW (base ++ '.' :: tokenChars dt ++ ".bak".data) =
      jsDateFromFields offW
        ⟨(dt.year.toNat : Int), dt.month, dt.day, dt.hour, dt.minute, dt.second⟩ := by
  have hlen : (tokenChars dt).length = 19 := tokenChars_length dt
  have hEq : base ++ '.' :: tokenChars dt ++ ".bak".data
      = (base ++ '.' :: tokenChars dt) ++ ".bak".data := by simp
  rw [hEq]
  set A := base ++ '.' :: tokenChars dt with hA
  have hAlen : A.length = base.length + 20 := by
    rw [hA]
    simp [hlen]
  unfold extractTimestampFromBackup
  rw [if_pos (by
    simp only [List.isSuffixOf_iff_suffix]
    exact ⟨A, rfl⟩ : (".bak".data).isSuffixOf (A ++ ".bak".data) = true)]
  have hlentot : (A ++ ".bak".data).length = A.length + 4 := by simp
  rw [hlentot]
  have h44 : A.length + 4 - 4 = A.length := by omega
  rw [h44, List.take_left]
  unfold extractFromBody
  rw [hAlen]
  rw [if_pos (by omega : 20 ≤ base.length + 20)]
  have hdrop : A.drop (base.length + 20 - 19) = tokenChars dt := by
    rw [hA]
    have h1 : base.length + 20 - 19 = (base ++ ['.']).length := by simp
    rw [h1, show base ++ '.' :: tokenChars dt = (base ++ ['.']) ++ tokenChars dt from by simp,
      List.drop_left]
  rw [hdrop, tokenFields_tokenChars dt hmo hd hh hmi hs hy4]
  have hget : A[base.length]? = some '.' := by
    rw [hA]
    rw [List.getElem?_append_right (le_refl _)]
    simp
  simp [hget]

/-- Decoding an encoded capture instant succeeds and yields the instant
shifted by the host timezone offset (the UTC-rendered token is re-read as
local wall-clock time). -/
theorem decode_encode (offW : Int) (base : List Char) (e : Int) (h : YearInRange e) :
    extractTimestampFromBackup offW (backupFileNameOf base e) = some (e + 60 * offW) := by
  obtain ⟨hok, hvf, hh23, hmi59, hs59, hmo12, hd31⟩ := epoch_inverse e
  obtain ⟨hy0, hy9⟩ := h
  unfold backupFileNameOf
  rw [token_shape]
  rw [extract_roundtrip offW base (civilOfEpoch e) (by omega) (by omega) (by omega)
    (by omega) (by omega) (by omega)]
  have hyr : ((civilOfEpoch e).year.toNat : Int) = (civilOfEpoch e).year := by omega
  have heta : (⟨((civilOfEpoch e).year.toNat : Int), (civilOfEpoch e).month,
      (civilOfEpoch e).day, (civilOfEpoch e).hour, (civilOfEpoch e).minute,
      (civilOfEpoch e).second⟩ : DateTime) = civilOfEpoch e := by
    rw [hyr]
  rw [heta]
  rw [jsDateFromFields, if_pos hvf, hok]

theorem candidateFilter_backupName (base : List Char) (e : Int) :
    candidateFilter base (backupFileNameOf base e) = true := by
  unfold candidateFilter backupFileNameOf
  rw [Bool.and_eq_true]
  constructor
  · rw [ List.isPrefixOf_iff_prefix]
    exact ⟨timestampToken (civilOfEpoch e) ++ ".bak".data, by simp⟩
  · rw [List.isSuffixOf_iff_suffix]
    exact ⟨base ++ '.' :: timestampToken (civilOfEpoch e), by simp [chars]⟩

theorem pickMax_eq_none : ∀ l : List (List Char × Int), pickMax l = none → l = [] := by
  intro l h
  cases l with
  | nil => rfl
  | cons b bs =>
    rw [pickMax] at h
    cases h2 : pickMax bs with
    | none =>
      rw [h2] at h
      simp at h
    | some r =>
      rw [h2] at h
      dsimp only at h
      split at h <;> simp at h

theorem pickMax_mem_max : ∀ l : List (List Char × Int), ∀ p, pickMax l = some p →
    p ∈ l ∧ ∀ q ∈ l, q.2 ≤ p.2 := by
  intro l
  induction l using pickMax.induct with
  | case1 =>
    intro p h
    simp [pickMax] at h
  | case2 a rest hrest =>
    intro p h
    rw [pickMax, hrest] at h
    simp at h
    subst h
    have hnil := pickMax_eq_none rest hrest
    subst hnil
    refine ⟨List.mem_cons_self _ _, ?_⟩
    intro q hq
    simp at hq
    subst hq
    exact le_refl _
  | case3 a rest q hrest hgt ih =>
    intro p h
    rw [pickMax, hrest] at h
    dsimp only at h
    rw [if_pos hgt] at h
    obtain ⟨hm, hmax⟩ := ih q hrest
    simp at h
    subst h
    refine ⟨List.mem_cons_of_mem _ hm, ?_⟩
    intro r hr
    rcases List.mem_cons.mp hr with h1 | h1
    · subst h1
      omega
    · exact hmax r h1
  | case4 a rest q hrest hgt ih =>
    intro p h
    rw [pickMax, hrest] at h
    dsimp only at h
    rw [if_neg hgt] at h
    obtain ⟨hm, hmax⟩ := ih q hrest
    simp at h
    subst h
    refine ⟨List.mem_cons_self _ _, ?_⟩
    intro r hr
    rcases List.mem_cons.mp hr with h1 | h1
    · subst h1
      exact le_refl _
    · have := hmax r h1
      omega

theorem pickMax_isSome : ∀ l : List (List Char × Int), l ≠ [] →
    (pickMax l).isSome = true := by
  intro l h
  cases l with
  | nil => exact absurd rfl h
  | cons a rest =>
    rw [pickMax]
    cases pickMax rest with
    | none => rfl
    | some q =>
      dsimp only
      split
      · rfl
      · rfl

theorem sweepOpsEntries_no_write (cutoff : Int) :
    ∀ dirPath es, ∀ op ∈ sweepOpsEntries cutoff dirPath es, op.isWrite = false := by
  intro dirPath es
  induction dirPath, es using sweepOpsEntries.induct cutoff with
  | case1 dirPath =>
    intro op hop
    simp [sweepOpsEntries] at hop
  | case2 dirPath n m sz r rest ih =>
    intro op hop
    rw [sweepOpsEntries] at hop
    rcases List.mem_append.mp hop with h1 | h1
    · split at h1
      · rcases List.mem_cons.mp h1 with h2 | h2
        · subst h2
          rfl
        · split at h2
          · simp at h2
            subst h2
            rfl
          · simp at h2
      · simp at h1
    · exact ih op h1
  | case3 dirPath n sub rest ih1 ih2 =>
    intro op hop
    rw [sweepOpsEntries] at hop
    rcases List.mem_cons.mp hop with h1 | h1
    · subst h1
      rfl
    · rcases List.mem_append.mp h1 with h2 | h2
      · exact ih1 op h2
      · exact ih2 op h2

theorem rmdirOpsEntries_no_write (cfg : Config) (env : Env) :
    ∀ dirPath es, ∀ op ∈ rmdirOpsEntries cfg env dirPath es, op.isWrite = false := by
  intro dirPath es
  induction dirPath, es using rmdirOpsEntries.induct cfg env with
  | case1 dirPath =>
    intro op hop
    simp [rmdirOpsEntries] at hop
  | case2 dirPath n m sz r rest ih =>
    intro op hop
    rw [rmdirOpsEntries] at hop
    exact ih op hop
  | case3 dirPath n sub rest ih1 ih2 =>
    intro op hop
    rw [rmdirOpsEntries] at hop
    rcases List.mem_append.mp hop with h1 | h1
    · rcases List.mem_cons.mp h1 with h2 | h2
      · subst h2
        rfl
      · rcases List.mem_append.mp h2 with h3 | h3
        · exact ih1 op h3
        · split at h3
          · simp at h3
            subst h3
            rfl
          · simp at h3
    · exact ih2 op h1

theorem sweepOps_no_write (cfg : Config) (env : Env) (now : Int) (dirPath : List Char)
    (node : Option FsNode) : ∀ op ∈ sweepOps cfg env now dirPath node, op.isWrite = false := by
  intro op hop
  match node with
  | none =>
    simp [sweepOps] at hop
    subst hop
    rfl
  | some (.file m sz r) =>
    simp [sweepOps] at hop
    rcases hop with h | h
    · subst h
      rfl
    · subst h
      rfl
  | some (.dir entries) =>
    rw [sweepOps] at hop
    rcases List.mem_append.mp hop with h1 | h1
    · rcases List.mem_append.mp h1 with h2 | h2
      · rcases List.mem_append.mp h2 with h3 | h3
        · rcases List.mem_append.mp h3 with h4 | h4
          · simp at h4
            rcases h4 with h | h
            · subst h
              rfl
            · subst h
              rfl
          · exact sweepOpsEntries_no_write _ _ _ op h4
        · simp at h3
          subst h3
          rfl
      · exact rmdirOpsEntries_no_write cfg env _ _ op h2
    · split at h1
      · simp at h1
        subst h1
        rfl
      · simp at h1

theorem findLatestInDir_captures (offW : Int) (base : List Char) (ts : List Int)
    (hne : ts ≠ []) (hr : ∀ e ∈ ts, YearInRange e) :
    ∃ e, e ∈ ts ∧
      findLatestInDir offW (ts.map (backupFileNameOf base)) base
        = some (backupFileNameOf base e) ∧
      extractTimestampFromBackup offW (backupFileNameOf base e) = some (e + 60 * offW) ∧
      ∀ e2 ∈ ts, e2 + 60 * offW ≤ e + 60 * offW := by
  unfold findLatestInDir
  have hfilter : (ts.map (backupFileNameOf base)).filter (candidateFilter base)
      = ts.map (backupFileNameOf base) := by
    rw [List.filter_eq_self]
    intro a ha
    obtain ⟨e, he, hae⟩ := List.mem_map.mp ha
    rw [← hae]
    exact candidateFilter_backupName base e
  rw [hfilter]
  have hmap : ∀ us : List Int, (∀ e ∈ us, YearInRange e) →
      (us.map (backupFileNameOf base)).filterMap
        (fun f => (extractTimestampFromBackup offW f).map (fun t => (f, t)))
      = us.map (fun e => (backupFileNameOf base e, e + 60 * offW)) := by
    intro us hus
    induction us with
    | nil => rfl
    | cons a rest ih =>
      simp only [List.map_cons, List.filterMap_cons]
      rw [decode_encode offW base a (hus a (by simp))]
      simp only [Option.map_some']
      rw [ih (fun e he => hus e (by simp [he]))]
  rw [hmap ts hr]
  have hmapne : ts.map (fun e => (backupFileNameOf base e, e + 60 * offW)) ≠ [] := by
    intro hcon
    exact hne (List.map_eq_nil_iff.mp hcon)
  obtain ⟨p, hp⟩ := Option.isSome_iff_exists.mp (pickMax_isSome _ hmapne)
  obtain ⟨hpm, hpmax⟩ := pickMax_mem_max _ p hp
  obtain ⟨e, he, hpe⟩ := List.mem_map.mp hpm
  refine ⟨e, he, ?_, ?_, ?_⟩
  · rw [hp, ← hpe]
    rfl
  · exact decode_encode offW base e (hr e he)
  · intro e2 he2
    have hmem2 : (backupFileNameOf base e2, e2 + 60 * offW)
        ∈ ts.map (fun e => (backupFileNameOf base e, e + 60 * offW)) :=
      List.mem_map.mpr ⟨e2, he2, rfl⟩
    have := hpmax _ hmem2
    rw [← hpe] at this
    exact this

/-- C1: for every source path and every sequence of successful captures of it,
`findLatestBackup` after the k-th capture returns the snapshot with the
greatest decoded capture timestamp among the snapshots captured so far. -/
theorem claim_C1 (cfg : Config) (env : Env) (offW : Int) (fs : FileSystem)
    (p dir : List Char) (entries : List (List Char × FsNode)) (ts : List Int)
    (hdir : findBackupDir cfg env p = some dir)
    (hnode : fs.node dir = some (.dir entries))
    (hlist : entries.map (fun en => en.1) = ts.map (backupFileNameOf (basenameChars p)))
    (hne : ts ≠ []) (hr : ∀ e ∈ ts, YearInRange e) :
    ∃ e, e ∈ ts ∧
      (findLatestBackupModel cfg env offW fs p).1
        = some (pathJoin dir (backupFileNameOf (basenameChars p) e)) ∧
      extractTimestampFromBackup offW (backupFileNameOf (basenameChars p) e)
        = some (e + 60 * offW) ∧
      ∀ e2 ∈ ts, e2 + 60 * offW ≤ e + 60 * offW := by
  obtain ⟨e, he, hfind, hdec, hmax⟩ := findLatestInDir_captures offW (basenameChars p) ts hne hr
  refine ⟨e, he, ?_, hdec, hmax⟩
  unfold findLatestBackupModel
  rw [hdir]
  dsimp only
  rw [hnode]
  dsimp only
  rw [hlist, hfind]
  rfl

theorem claim_C1_witness :
    ∃ e, e ∈ [(0:Int), 86400] ∧
      (findLatestBackupModel cfgDefault envWS 0 fsTwoCaptures (chars "/ws/app.ts")).1
        = some (pathJoin (chars "/ws/.vscode/backups")
            (backupFileNameOf (basenameChars (chars "/ws/app.ts")) e)) ∧
      extractTimestampFromBackup 0 (backupFileNameOf (basenameChars (chars "/ws/app.ts")) e)
        = some (e + 60 * 0) ∧
      ∀ e2 ∈ [(0:Int), 86400], e2 + 60 * 0 ≤ e + 60 * 0 :=
  claim_C1 cfgDefault envWS 0 fsTwoCaptures (chars "/ws/app.ts")
    (chars "/ws/.vscode/backups")
    [(backupFileNameOf (chars "app.ts") 0, .file 0 10 true),
     (backupFileNameOf (chars "app.ts") 86400, .file 86400 10 true)]
    [0, 86400] (by decide) (by rfl) (by decide) (by decide) (by decide)

/-- C2 counterexample: in a UTC+1 host (`getTimezoneOffset() = -60`), the
token encoded for epoch 0 decodes to −3600, not 0: the encoder renders UTC
fields but the decoder re-reads them as local wall-clock time. -/
theorem claim_C2_cex :
    extractTimestampFromBackup (-60) (backupFileNameOf (chars "app.ts") 0)
      = some (-3600) ∧ ((-3600 : Int) ≠ 0) := by
  constructor
  · decide
  · decide

/-- C2 (amended): decoding the encoded token yields the instant shifted by
the host timezone offset — exactly the instant itself when the host is UTC —
and the decoder returns `none` (never throws, never partially parses) on any
name without the `.bak` suffix, any name whose trailing token is not of the
`YYYY-MM-DD_HH-MM-SS` shape, and any token with out-of-range field values. -/
theorem claim_C2 (offW : Int) (base : List Char) (e : Int) (h : YearInRange e) :
    extractTimestampFromBackup offW (backupFileNameOf base e) = some (e + 60 * offW) ∧
    (offW = 0 → extractTimestampFromBackup offW (backupFileNameOf base e) = some e) ∧
    (∀ name, ¬ ((chars ".bak").isSuffixOf name = true) →
      extractTimestampFromBackup offW name = none) ∧
    (∀ body, tokenFields (body.drop (body.length - 19)) = none →
      extractFromBody offW body = none) ∧
    (∀ dt, ¬ ValidFields dt → jsDateFromFields offW dt = none) := by
  refine ⟨decode_encode offW base e h, ?_, ?_, ?_, ?_⟩
  · intro h0
    subst h0
    have := decode_encode 0 base e h
    simpa using this
  · intro name hn
    unfold chars at hn
    unfold extractTimestampFromBackup
    rw [if_neg hn]
  · intro body hb
    unfold extractFromBody
    split
    · rw [hb]
    · rfl
  · intro dt hv
    unfold jsDateFromFields
    rw [if_neg hv]

theorem claim_C2_witness :
    YearInRange 0 ∧
      extractTimestampFromBackup 0 (backupFileNameOf (chars "app.ts") 0) = some 0 :=
  ⟨by decide, (claim_C2 0 (chars "app.ts") 0 (by decide)).2.1 rfl⟩

/-- C4 counterexample: in a UTC+1 host (`getTimezoneOffset() = -60`), the
snapshot of a capture at epoch 0 is named with the UTC components
`1970-01-01_00-00-00`, while the local-time components of that instant are
`1970-01-01_01-00-00`; the name the claim prescribes differs from the name
the code produces. -/
theorem claim_C4_cex :
    backupFileNameOf (chars "app.ts") 0 = chars "app.ts.1970-01-01_00-00-00.bak" ∧
    tokenChars (civilOfEpoch (0 - 60 * (-60))) = chars "1970-01-01_01-00-00" ∧
    backupFileNameOf (chars "app.ts") 0 ≠
      chars "app.ts." ++ tokenChars (civilOfEpoch (0 - 60 * (-60))) ++ chars ".bak" := by
  refine ⟨by decide, by decide, by decide⟩

/-- C4 (amended): every snapshot written by a capture at instant `t` is named
`<originalFileName>.<YYYY-MM-DD>_<HH-MM-SS>.bak` where the fields are the
**UTC** components of `t` (zero-padded), the date and time parts are separated
by an underscore and the time fields by dashes. -/
theorem claim_C4 (fileName : List Char) (e : Int) (h : YearInRange e) :
    backupFileNameOf fileName e =
      fileName ++ '.' ::
        (pad4 (civilOfEpoch e).year.toNat ++ '-' :: pad2 (civilOfEpoch e).month ++
         '-' :: pad2 (civilOfEpoch e).day ++ '_' :: pad2 (civilOfEpoch e).hour ++
         '-' :: pad2 (civilOfEpoch e).minute ++ '-' :: pad2 (civilOfEpoch e).second) ++
      chars ".bak" := by
  have _hrange := h
  unfold backupFileNameOf
  rw [token_shape]
  rfl

theorem claim_C4_witness :
    YearInRange 0 ∧
      backupFileNameOf (chars "app.ts") 0 =
        chars "app.ts" ++ '.' ::
          (pad4 (civilOfEpoch 0).year.toNat ++ '-' :: pad2 (civilOfEpoch 0).month ++
           '-' :: pad2 (civilOfEpoch 0).day ++ '_' :: pad2 (civilOfEpoch 0).hour ++
           '-' :: pad2 (civilOfEpoch 0).minute ++ '-' :: pad2 (civilOfEpoch 0).second) ++
        chars ".bak" :=
  ⟨by decide, claim_C4 (chars "app.ts") 0 (by decide)⟩

/-- C5 counterexample: `app.ts.old.2024-01-15_14-30-25.bak` — the snapshot of
a *different* file `app.ts.old` — is not of the exact
`<basename>.<token>.<ext>` form for source `app.ts`, yet `findLatestBackup`
accepts it as a candidate for `app.ts` and returns it. -/
theorem claim_C5_cex :
    findLatestInDir 0 [chars "app.ts.old.2024-01-15_14-30-25.bak"] (chars "app.ts")
      = some (chars "app.ts.old.2024-01-15_14-30-25.bak") ∧
    specExactSnapshotName (chars "app.ts") (chars "app.ts.old.2024-01-15_14-30-25.bak")
      = false := by
  constructor
  · decide
  · decide

/-- C5 (amended): `findLatestBackup` considers as candidates exactly the
directory entries that start with `<basename>.` and end with `.bak` —
including entries with additional segments between the base name and the
token; entries whose trailing token does not decode are discarded without
aborting the enumeration, and the returned candidate carries the greatest
decoded timestamp. -/
theorem claim_C5 (offW : Int) (files : List (List Char)) (base : List Char) :
    (∀ name, findLatestInDir offW files base = some name →
      name ∈ files ∧ candidateFilter base name = true ∧
      ∃ t, extractTimestampFromBackup offW name = some t ∧
        ∀ f ∈ files, candidateFilter base f = true →
          ∀ t2, extractTimestampFromBackup offW f = some t2 → t2 ≤ t) ∧
    ((∃ f, f ∈ files ∧ candidateFilter base f = true ∧
        (extractTimestampFromBackup offW f).isSome = true) →
      (findLatestInDir offW files base).isSome = true) := by
  constructor
  · intro name h
    unfold findLatestInDir at h
    obtain ⟨p, hp, hp1⟩ := Option.map_eq_some'.mp h
    obtain ⟨hpm, hpmax⟩ := pickMax_mem_max _ p hp
    obtain ⟨f, hf, hfp⟩ := List.mem_filterMap.mp hpm
    obtain ⟨t, ht, htp⟩ := Option.map_eq_some'.mp hfp
    obtain ⟨hffiles, hffilter⟩ := List.mem_filter.mp hf
    have hfname : f = name := by
      rw [← hp1, ← htp]
    subst hfname
    refine ⟨hffiles, hffilter, t, ht, ?_⟩
    intro f2 hf2 hfil2 t2 ht2
    have hmem2 : (f2, t2) ∈ (files.filter (candidateFilter base)).filterMap
        (fun f => (extractTimestampFromBackup offW f).map (fun t => (f, t))) := by
      apply List.mem_filterMap.mpr
      exact ⟨f2, List.mem_filter.mpr ⟨hf2, hfil2⟩, by rw [ht2]; rfl⟩
    have := hpmax _ hmem2
    rw [← htp] at this
    exact this
  · intro ⟨f, hf, hfil, hsome⟩
    obtain ⟨t, ht⟩ := Option.isSome_iff_exists.mp hsome
    unfold findLatestInDir
    have hmem : (f, t) ∈ (files.filter (candidateFilter base)).filterMap
        (fun f => (extractTimestampFromBackup offW f).map (fun t => (f, t))) := by
      apply List.mem_filterMap.mpr
      exact ⟨f, List.mem_filter.mpr ⟨hf, hfil⟩, by rw [ht]; rfl⟩
    have hne : (files.filter (candidateFilter base)).filterMap
        (fun f => (extractTimestampFromBackup offW f).map (fun t => (f, t))) ≠ [] := by
      intro hcon
      rw [hcon] at hmem
      simp at hmem
    obtain ⟨p, hp⟩ := Option.isSome_iff_exists.mp (pickMax_isSome _ hne)
    rw [hp]
    rfl

theorem claim_C5_witness :
    (findLatestInDir 0 [backupFileNameOf (chars "a.ts") 0] (chars "a.ts")).isSome = true :=
  (claim_C5 0 [backupFileNameOf (chars "a.ts") 0] (chars "a.ts")).2
    ⟨backupFileNameOf (chars "a.ts") 0, by decide, by decide, by decide⟩

/-- C6 counterexample: for a workspace file with no custom root, the code
uses `<workspaceRoot>/.vscode/backups` — not
`<workspaceRoot>/.snapshot-meta/snapshots` — and for a file outside any
workspace `findLatestBackup` abandons the search (`none`) instead of using
`<sourceDir>/snapshots`. -/
theorem claim_C6_cex :
    backupRootForWrite cfgDefault envWS (chars "/ws/app.ts")
      = chars "/ws/.vscode/backups" ∧
    backupRootForWrite cfgDefault envWS (chars "/ws/app.ts")
      ≠ chars "/ws/.snapshot-meta/snapshots" ∧
    backupRootForRead cfgDefault envWS (chars "/tmp/lone.ts") = none ∧
    backupRootForWrite cfgDefault envWS (chars "/tmp/lone.ts")
      = chars "/tmp/backups" := by
  refine ⟨by decide, by decide, by decide, by decide⟩

/-- C6 (amended): when the custom root is non-empty after trimming it is used
verbatim when absolute and resolved against the working directory otherwise,
for both capture and `findLatest`; when it is empty, capture uses
`<workspaceRoot>/.vscode/backups` for workspace files and
`<sourceDir>/backups` otherwise, while `findLatest` uses
`<workspaceRoot>/.vscode/backups` for workspace files and finds nothing
otherwise. -/
theorem claim_C6 (cfg : Config) (env : Env) (p : List Char) :
    (customDirActive cfg = true →
      backupRootForWrite cfg env p = resolveCustomDir env cfg.backupDirectory ∧
      backupRootForRead cfg env p = some (resolveCustomDir env cfg.backupDirectory) ∧
      (isAbsolutePath cfg.backupDirectory = true →
        resolveCustomDir env cfg.backupDirectory = cfg.backupDirectory) ∧
      (isAbsolutePath cfg.backupDirectory = false →
        resolveCustomDir env cfg.backupDirectory
          = pathResolve env.cwd cfg.backupDirectory)) ∧
    (customDirActive cfg = false →
      (∀ ws, env.workspaceFolder p = some ws →
        backupRootForWrite cfg env p
          = pathJoin (pathJoin ws (chars ".vscode")) (chars "backups") ∧
        backupRootForRead cfg env p
          = some (pathJoin (pathJoin ws (chars ".vscode")) (chars "backups"))) ∧
      (env.workspaceFolder p = none →
        backupRootForWrite cfg env p = pathJoin (dirname p) (chars "backups") ∧
        backupRootForRead cfg env p = none)) := by
  constructor
  · intro hc
    refine ⟨?_, ?_, ?_, ?_⟩
    · unfold backupRootForWrite
      rw [if_pos hc]
    · unfold backupRootForRead
      rw [if_pos hc]
    · intro habs
      unfold resolveCustomDir
      rw [if_pos habs]
    · intro habs
      unfold resolveCustomDir
      rw [if_neg (by rw [habs]; exact Bool.false_ne_true)]
  · intro hc
    constructor
    · intro ws hws
      constructor
      · unfold backupRootForWrite
        rw [if_neg (by rw [hc]; exact Bool.false_ne_true), hws]
      · unfold backupRootForRead
        rw [if_neg (by rw [hc]; exact Bool.false_ne_true), hws]
    · intro hws
      constructor
      · unfold backupRootForWrite
        rw [if_neg (by rw [hc]; exact Bool.false_ne_true), hws]
      · unfold backupRootForRead
        rw [if_neg (by rw [hc]; exact Bool.false_ne_true), hws]

theorem claim_C6_witness :
    backupRootForWrite cfgDefault envWS (chars "/ws/app.ts")
      = pathJoin (pathJoin (chars "/ws") (chars ".vscode")) (chars "backups") :=
  (((claim_C6 cfgDefault envWS (chars "/ws/app.ts")).2 (by decide)).1
    (chars "/ws") (by decide)).1

theorem validateFileForBackupModel_no_write (fs : FileSystem) (p : List Char) :
    ∀ op ∈ (validateFileForBackupModel fs p).2, op.isWrite = false := by
  intro op hop
  unfold validateFileForBackupModel at hop
  split at hop
  · simp at hop
  · split at hop
    · simp at hop
    · split at hop
      · simp at hop
        subst hop
        rfl
      · simp at hop
        subst hop
        rfl
      · split at hop
        · simp at hop
          subst hop
          rfl
        · split at hop
          · simp at hop
            rcases hop with h | h <;> (subst h; rfl)
          · simp at hop
            rcases hop with h | h <;> (subst h; rfl)

theorem backupFileModel_no_write_of_invalid (cfg : Config) (env : Env) (fs : FileSystem)
    (now : Int) (cancel : Bool) (st : List (List Char)) (p : List Char)
    (h : ∃ e, (validateFileForBackupModel fs p).1 = .error e) :
    ∀ op ∈ (backupFileModel cfg env fs now cancel st p).2.2, op.isWrite = false := by
  intro op hop
  obtain ⟨e, he⟩ := h
  unfold backupFileModel at hop
  split at hop
  · simp at hop
  · split at hop
    · next e2 ops heq =>
      rw [heq] at he
      simp at he
      subst he
      exact validateFileForBackupModel_no_write fs p op (by rw [heq]; exact hop)
    · next u ops1 heq =>
      rw [heq] at he
      simp at he

theorem validateFileForBackup_fails_of_notInBackupDir (fs : FileSystem) (p : List Char)
    (h : validateNotInBackupDirectory p = .error .BACKUP_DIRECTORY_FILE) :
    ∃ e, (validateFileForBackupModel fs p).1 = .error e := by
  unfold validateFileForBackupModel
  cases hfp : validateFilePath p with
  | error e => exact ⟨e, rfl⟩
  | ok _ =>
    rw [h]
    exact ⟨.BACKUP_DIRECTORY_FILE, rfl⟩

/-- C3: the loop-prevention validator rejects, with the typed error
`BACKUP_DIRECTORY_FILE`, every path whose normalized lower-cased form contains
a configured backup-directory pattern (separator-delimited segment), and every
path whose extension is `.bak` in any casing; consequently a capture of such a
path never performs a write. -/
theorem claim_C3 (p : List Char)
    (h : (∃ pat, pat ∈ backupPatterns ∧ pat <:+: (pathNormalize p).map jsToLower) ∨
         (extname p).map jsToLower = chars ".bak") :
    validateNotInBackupDirectory p = .error .BACKUP_DIRECTORY_FILE ∧
    ∀ cfg env fs now cancel st op,
      op ∈ (backupFileModel cfg env fs now cancel st p).2.2 → op.isWrite = false := by
  have hlower : ∀ pat ∈ backupPatterns, pat.map jsToLower = pat := by decide
  have hval : validateNotInBackupDirectory p = .error .BACKUP_DIRECTORY_FILE := by
    unfold validateNotInBackupDirectory
    rcases h with ⟨pat, hmem, hinf⟩ | hext
    · rw [if_pos]
      left
      apply List.any_eq_true.mpr
      refine ⟨pat, hmem, ?_⟩
      rw [hlower pat hmem]
      unfold jsIncludes
      exact decide_eq_true hinf
    · rw [if_pos (Or.inr hext)]
  refine ⟨hval, ?_⟩
  intro cfg env fs now cancel st op hop
  exact backupFileModel_no_write_of_invalid cfg env fs now cancel st p
    (validateFileForBackup_fails_of_notInBackupDir fs p hval) op hop

theorem claim_C3_witness :
    ((∃ pat, pat ∈ backupPatterns ∧
        pat <:+: (pathNormalize (chars "/Ws/BACKUPS/app.ts")).map jsToLower) ∨
      (extname (chars "/Ws/BACKUPS/app.ts")).map jsToLower = chars ".bak") ∧
    validateNotInBackupDirectory (chars "/Ws/BACKUPS/app.ts")
      = .error .BACKUP_DIRECTORY_FILE :=
  ⟨by decide, (claim_C3 (chars "/Ws/BACKUPS/app.ts") (by decide)).1⟩

/-- C7: with `backupDirectory` set to `" "`, root selection treats the setting
as unset (the sweep runs over `<ws>/.vscode/backups`) but the root-preservation
test in `cleanupEmptyDirectories` treats it as set and compares the root
against `path.resolve(" ")`, so the sweep deletes its own root directory once
empty — contradicting the root-preservation intent the code itself expresses
(`"Don't remove the main backup directory"`).  With the default empty setting
the same root is preserved. -/
theorem claim_C7 :
    customDirActive cfgBlank = false ∧
    cleanupRoots cfgBlank envWS = [chars "/ws/.vscode/backups"] ∧
    isMainBackupDir cfgBlank envWS (chars "/ws/.vscode/backups") = false ∧
    cleanupEmptyDirectories cfgBlank envWS (chars "/ws/.vscode/backups")
      (.dir []) = none ∧
    isMainBackupDir cfgDefault envWS (chars "/ws/.vscode/backups") = true ∧
    cleanupEmptyDirectories cfgDefault envWS (chars "/ws/.vscode/backups")
      (.dir []) = some (.dir []) := by
  have hblank : cleanupEntriesRec cfgBlank envWS (chars "/ws/.vscode/backups") [] = [] := by
    simp [cleanupEntriesRec]
  have hdef : cleanupEntriesRec cfgDefault envWS (chars "/ws/.vscode/backups") [] = [] := by
    simp [cleanupEntriesRec]
  refine ⟨by decide, by decide, by decide, ?_, by decide, ?_⟩
  · simp only [cleanupEmptyDirectories]
    rw [hblank]
    rw [if_pos ⟨rfl, by decide⟩]
  · simp only [cleanupEmptyDirectories]
    rw [hdef]
    rw [if_neg (by
      intro hcon
      exact hcon.2 (by decide))]

theorem filter_isWrite_nil : ∀ l : List FsOp, (∀ op ∈ l, op.isWrite = false) →
    l.filter FsOp.isWrite = [] := by
  intro l h
  induction l with
  | nil => rfl
  | cons a rest ih =>
    rw [List.filter_cons, h a (List.mem_cons_self a rest)]
    simp only [Bool.false_eq_true, if_false]
    exact ih (fun op hop => h op (List.mem_cons_of_mem a hop))

theorem ensureDirOps_no_write (fs : FileSystem) (d : List Char) :
    ∀ op ∈ ensureDirOps fs d, op.isWrite = false := by
  intro op hop
  unfold ensureDirOps at hop
  split at hop
  · simp at hop
    subst hop
    rfl
  · simp at hop
    rcases hop with h | h <;> (subst h; rfl)

/-- C8: while a capture or restore of `p` is in flight (its lock is held), a
second capture request for `p` returns the distinguished busy outcome — not an
exception — leaving the state untouched and performing no filesystem
operation; and of two concurrent capture attempts on `p`, the one that
acquires the lock is the only one whose trace ever writes: a successful run
writes exactly once, to the generated backup path. -/
theorem claim_C8 (cfg : Config) (env : Env) (fs : FileSystem) (now : Int)
    (cancel : Bool) (st : List (List Char)) (p : List Char) (hheld : p ∈ st) :
    backupFileModel cfg env fs now cancel st p = (st, .busy, []) ∧
    tryBeginOperation st p = none ∧
    ∀ st0, p ∉ st0 →
      tryBeginOperation st0 p = some (p :: st0) ∧
      backupFileModel cfg env fs now cancel (p :: st0) p = (p :: st0, .busy, []) ∧
      ∀ bp, (backupFileModel cfg env fs now cancel st0 p).2.1 = .success bp →
        (backupFileModel cfg env fs now cancel st0 p).2.2.filter FsOp.isWrite
          = [FsOp.writeOp bp] := by
  refine ⟨?_, ?_, ?_⟩
  · unfold backupFileModel
    rw [if_pos hheld]
  · unfold tryBeginOperation
    rw [if_pos hheld]
  · intro st0 h0
    refine ⟨?_, ?_, ?_⟩
    · unfold tryBeginOperation
      rw [if_neg h0]
    · unfold backupFileModel
      rw [if_pos (List.mem_cons_self p st0)]
    · intro bp hsucc
      unfold backupFileModel at hsucc ⊢
      rw [if_neg h0] at hsucc ⊢
      cases heq : validateFileForBackupModel fs p with
      | mk v ops1 =>
        cases v with
        | error e =>
          rw [heq] at hsucc
          dsimp only at hsucc
          simp at hsucc
        | ok u =>
          rw [heq] at hsucc
          dsimp only at hsucc
          dsimp only
          by_cases hcancel : cancel = true
          · rw [if_pos hcancel] at hsucc
            simp at hsucc
          · rw [if_neg hcancel] at hsucc ⊢
            cases heq2 : validateBackupDirectory (dirname (generateBackupPath cfg env p now)) with
            | error e =>
              rw [heq2] at hsucc
              dsimp only at hsucc
              simp at hsucc
            | ok u2 =>
              rw [heq2] at hsucc
              dsimp only at hsucc
              dsimp only
              have hbp : generateBackupPath cfg env p now = bp := by
                exact BackupOutcome.success.inj hsucc
              rw [List.filter_append, List.filter_append, List.filter_append]
              rw [filter_isWrite_nil _ (by
                intro op hop
                have := validateFileForBackupModel_no_write fs p op
                rw [heq] at this
                exact this hop)]
              rw [filter_isWrite_nil _ (ensureDirOps_no_write fs _)]
              rw [filter_isWrite_nil
                (if cfg.autoCleanup = true then
                  sweepOps cfg env now (dirname (generateBackupPath cfg env p now))
                    (fs.node (dirname (generateBackupPath cfg env p now)))
                else []) (by
                intro op hop
                split at hop
                · exact sweepOps_no_write cfg env now _ _ op hop
                · simp at hop)]
              rw [hbp]
              rfl

theorem claim_C8_witness :
    (chars "/ws/app.ts") ∈ [chars "/ws/app.ts"] ∧
    backupFileModel cfgDefault envWS fsTwoCaptures 0 false [chars "/ws/app.ts"]
      (chars "/ws/app.ts") = ([chars "/ws/app.ts"], .busy, []) :=
  ⟨by decide,
   (claim_C8 cfgDefault envWS fsTwoCaptures 0 false [chars "/ws/app.ts"]
     (chars "/ws/app.ts") (by decide)).1⟩

theorem isWriteTo_false_of_not_write (p : List Char) (op : FsOp)
    (h : op.isWrite = false) : op.isWriteTo p = false := by
  cases op with
  | writeOp q => simp [FsOp.isWrite] at h
  | statOp q => rfl
  | accessOp q => rfl
  | readdirOp q => rfl
  | readOp q => rfl
  | mkdirOp q => rfl
  | unlinkOp q => rfl
  | rmdirOp q => rfl

theorem findLatestBackupModel_no_write (cfg : Config) (env : Env) (offW : Int)
    (fs : FileSystem) (p : List Char) :
    ∀ op ∈ (findLatestBackupModel cfg env offW fs p).2, op.isWrite = false := by
  intro op hop
  unfold findLatestBackupModel at hop
  split at hop
  · simp at hop
  · split at hop
    · simp at hop
      subst hop
      rfl
    · simp at hop
      rcases hop with h | h <;> (subst h; rfl)
    · simp at hop
      rcases hop with h | h <;> (subst h; rfl)

theorem diagnosticsOps_no_write (cfg : Config) (env : Env) (fs : FileSystem)
    (p : List Char) : ∀ op ∈ diagnosticsOps cfg env fs p, op.isWrite = false := by
  intro op hop
  unfold diagnosticsOps at hop
  split at hop
  · simp at hop
  · split at hop
    · simp at hop
      subst hop
      rfl
    · simp at hop
      rcases hop with h | h <;> (subst h; rfl)

/-- C9: a restore request for a path with no existing snapshot reports the
no-snapshot-found outcome and performs no write at all — in particular none to
the source file, whose content is therefore unchanged. -/
theorem claim_C9 (cfg : Config) (env : Env) (offW : Int) (fs : FileSystem)
    (confirm cancel : Bool) (st : List (List Char)) (p : List Char)
    (hfree : p ∉ st)
    (hno : (findLatestBackupModel cfg env offW fs p).1 = none) :
    (rollbackFileModel cfg env offW fs confirm cancel st p).2.1 = .noBackupFound ∧
    ∀ op ∈ (rollbackFileModel cfg env offW fs confirm cancel st p).2.2,
      op.isWriteTo p = false ∧ op.isWrite = false := by
  have hops := findLatestBackupModel_no_write cfg env offW fs p
  cases hP : findLatestBackupModel cfg env offW fs p with
  | mk o ops =>
    rw [hP] at hno hops
    simp at hno
    subst hno
    have hmain : rollbackFileModel cfg env offW fs confirm cancel st p
        = (st, .noBackupFound, ops ++ diagnosticsOps cfg env fs p) := by
      unfold rollbackFileModel
      rw [if_neg hfree, hP]
    rw [hmain]
    refine ⟨rfl, ?_⟩
    intro op hop
    have hw : op.isWrite = false := by
      rcases List.mem_append.mp hop with h1 | h1
      · exact hops op h1
      · exact diagnosticsOps_no_write cfg env fs p op h1
    exact ⟨isWriteTo_false_of_not_write p op hw, hw⟩

theorem claim_C9_witness :
    ((chars "/ws/app.ts") ∉ ([] : List (List Char))) ∧
    (rollbackFileModel cfgDefault envWS 0 fsEmpty true false [] (chars "/ws/app.ts")).2.1
      = .noBackupFound :=
  ⟨by decide,
   (claim_C9 cfgDefault envWS 0 fsEmpty true false [] (chars "/ws/app.ts")
     (by decide) (by decide)).1⟩

theorem splitOnP_append_sep (p : Char → Bool) (s : Char) (hs : p s = true) :
    ∀ t rest : List Char, (t ++ s :: rest).splitOnP p = t.splitOnP p ++ rest.splitOnP p := by
  intro t rest
  induction t with
  | nil => simp [List.splitOnP_cons, hs]
  | cons a t ih =>
    rw [List.cons_append, List.splitOnP_cons, List.splitOnP_cons]
    by_cases ha : p a
    · rw [if_pos ha, if_pos ha, ih, List.cons_append]
    · rw [if_neg ha, if_neg ha, ih]
      cases htp : t.splitOnP p with
      | nil => exact absurd htp (List.splitOnP_ne_nil p t)
      | cons h0 hs0 => rfl

theorem joinSegs_append_singleton (ss : List (List Char)) (s : List Char) :
    joinSegs (ss ++ [s]) = if ss = [] then s else joinSegs ss ++ '/' :: s := by
  induction ss with
  | nil => simp [joinSegs, List.intercalate]
  | cons a ss ih =>
    rw [if_neg (by simp)]
    cases ss with
    | nil => simp [joinSegs, List.intercalate]
    | cons b ss2 =>
      have hstep : ∀ (x y : List Char) (l : List (List Char)),
          joinSegs (x :: y :: l) = x ++ '/' :: joinSegs (y :: l) := by
        intro x y l
        simp [joinSegs, List.intercalate, List.intersperse_cons_cons]
      have h1 : (a :: b :: ss2) ++ [s] = a :: b :: (ss2 ++ [s]) := by simp
      have h2 : b :: (ss2 ++ [s]) = (b :: ss2) ++ [s] := by simp
      rw [h1, hstep a b (ss2 ++ [s]), h2, ih, if_neg (by simp), hstep a b ss2]
      simp

theorem normStep_push (allow : Bool) (acc : List (List Char)) {s : List Char}
    (hn0 : s ≠ []) (hn2 : s ≠ ['.']) (hn3 : s ≠ ['.', '.']) :
    normStep allow acc s = s :: acc := by
  unfold normStep
  rw [if_neg (by rintro (h | h) <;> [exact hn0 h; exact hn2 h]), if_neg hn3]

theorem getLast_cons_of_ne_nil (a : Char) (l : List Char) (h : l ≠ []) :
    (a :: l).getLast? = l.getLast? := by
  cases l with
  | nil => exact absurd rfl h
  | cons b m => rw [List.getLast?_cons_cons]

theorem splitOn_single {s : List Char} (h : ('/' : Char) ∉ s) :
    s.splitOn '/' = [s] := by
  unfold List.splitOn
  refine List.splitOnP_eq_single _ _ ?_
  intro x hx
  simp only [beq_iff_eq]
  intro hc
  subst hc
  exact h hx

/-- A bare segment (nonempty, slash-free, not a dot segment, not ending in a
separator) is left untouched by `path.normalize`. -/
theorem pathNormalize_seg {s : List Char} (hn0 : s ≠ [])
    (hn1 : ('/' : Char) ∉ s) (hn2 : s ≠ ['.']) (hn3 : s ≠ ['.', '.'])
    (hlast : s.getLast? ≠ some '/') :
    pathNormalize s = s := by
  have habs : ¬(s.head? = some '/') := by
    intro h
    exact hn1 (List.mem_of_mem_head? (Option.mem_def.mpr h))
  unfold pathNormalize
  rw [if_neg hn0]
  dsimp only
  rw [splitOn_single hn1, List.foldl_cons, List.foldl_nil,
    normStep_push _ _ hn0 hn2 hn3, List.reverse_cons, List.reverse_nil, List.nil_append]
  have hj : joinSegs [s] = s := by simp [joinSegs, List.intercalate]
  rw [hj, if_neg hn0, if_neg habs, if_neg hlast, List.append_nil]

/-- `path.normalize` keeps a trailing bare segment as the final segment of its
output: normalizing `t ++ "/" ++ s` yields `s` itself or something of the form
`u ++ "/" ++ s`. -/
theorem pathNormalize_append_seg {s : List Char} (hn0 : s ≠ [])
    (hn1 : ('/' : Char) ∉ s) (hn2 : s ≠ ['.']) (hn3 : s ≠ ['.', '.'])
    (hlast : s.getLast? ≠ some '/') (t : List Char) :
    pathNormalize (t ++ '/' :: s) = s ∨
      ∃ u, pathNormalize (t ++ '/' :: s) = u ++ '/' :: s := by
  have hq : t ++ '/' :: s ≠ [] := by simp
  have hsplit : (t ++ '/' :: s).splitOn '/' = t.splitOn '/' ++ [s] := by
    unfold List.splitOn
    rw [splitOnP_append_sep _ '/' (by simp) t s]
    have hone : s.splitOnP (fun a => a == '/') = [s] := splitOn_single hn1
    rw [hone]
  have htrail : ¬((t ++ '/' :: s).getLast? = some '/') := by
    rw [List.getLast?_append_cons, getLast_cons_of_ne_nil '/' s hn0]
    exact hlast
  unfold pathNormalize
  rw [if_neg hq]
  dsimp only
  rw [hsplit, List.foldl_append, List.foldl_cons, List.foldl_nil,
    normStep_push _ _ hn0 hn2 hn3, List.reverse_cons, joinSegs_append_singleton]
  by_cases hA : (List.foldl (normStep (!decide ((t ++ '/' :: s).head? = some '/'))) []
      (t.splitOn '/')).reverse = []
  · rw [if_pos hA, if_neg hn0, if_neg htrail, List.append_nil]
    by_cases habs : (t ++ '/' :: s).head? = some '/'
    · rw [if_pos habs]
      exact Or.inr ⟨[], rfl⟩
    · rw [if_neg habs]
      exact Or.inl rfl
  · rw [if_neg hA, if_neg (by simp), if_neg htrail, List.append_nil]
    by_cases habs : (t ++ '/' :: s).head? = some '/'
    · rw [if_pos habs]
      exact Or.inr ⟨'/' :: joinSegs ((List.foldl (normStep
        (!decide ((t ++ '/' :: s).head? = some '/'))) [] (t.splitOn '/')).reverse), rfl⟩
    · rw [if_neg habs]
      exact Or.inr ⟨joinSegs ((List.foldl (normStep
        (!decide ((t ++ '/' :: s).head? = some '/'))) [] (t.splitOn '/')).reverse), rfl⟩

theorem pathNormalize_endsSeg {s : List Char} (hn0 : s ≠ [])
    (hn1 : ('/' : Char) ∉ s) (hn2 : s ≠ ['.']) (hn3 : s ≠ ['.', '.'])
    (hlast : s.getLast? ≠ some '/') (q : List Char)
    (h : q = s ∨ ∃ t, q = t ++ '/' :: s) :
    pathNormalize q = s ∨ ∃ u, pathNormalize q = u ++ '/' :: s := by
  rcases h with rfl | ⟨t, rfl⟩
  · exact Or.inl (pathNormalize_seg hn0 hn1 hn2 hn3 hlast)
  · exact pathNormalize_append_seg hn0 hn1 hn2 hn3 hlast t

theorem pathJoin_endsSeg {s : List Char} (hn0 : s ≠ [])
    (hn1 : ('/' : Char) ∉ s) (hn2 : s ≠ ['.']) (hn3 : s ≠ ['.', '.'])
    (hlast : s.getLast? ≠ some '/') (dir : List Char) :
    pathJoin dir s = s ∨ ∃ u, pathJoin dir s = u ++ '/' :: s := by
  unfold pathJoin
  rw [if_neg (fun hc => hn0 hc.2)]
  by_cases hd : dir = []
  · rw [if_pos hd]
    exact Or.inl (pathNormalize_seg hn0 hn1 hn2 hn3 hlast)
  · rw [if_neg hd, if_neg hn0]
    exact pathNormalize_append_seg hn0 hn1 hn2 hn3 hlast dir

theorem mem_of_endsSeg (c : Char) {s : List Char} (q : List Char) (hc : c ∈ s)
    (h : q = s ∨ ∃ t, q = t ++ '/' :: s) : c ∈ q := by
  rcases h with rfl | ⟨t, rfl⟩
  · exact hc
  · exact List.mem_append.mpr (Or.inr (List.mem_cons_of_mem _ hc))

/-- A successful `findLatestBackup` returns the join of the enumerated
directory with one of its entries, an entry that passed the candidate
filter for the source file's base name. -/
theorem findLatestBackupModel_shape (cfg : Config) (env : Env) (offW : Int)
    (fs : FileSystem) (p latest : List Char) (ops : List FsOp)
    (h : findLatestBackupModel cfg env offW fs p = (some latest, ops)) :
    ∃ dir entries name, fs.node dir = some (.dir entries) ∧
      (∃ en ∈ entries, en.1 = name) ∧
      candidateFilter (basenameChars p) name = true ∧
      latest = pathJoin dir name := by
  unfold findLatestBackupModel at h
  cases hbd : findBackupDir cfg env p with
  | none =>
    rw [hbd] at h
    dsimp only at h
    rw [Prod.mk.injEq] at h
    exact Option.noConfusion h.1
  | some dir =>
    rw [hbd] at h
    dsimp only at h
    cases hnode : fs.node dir with
    | none =>
      rw [hnode] at h
      dsimp only at h
      rw [Prod.mk.injEq] at h
      exact Option.noConfusion h.1
    | some node =>
      cases node with
      | file m sz r =>
        rw [hnode] at h
        dsimp only at h
        rw [Prod.mk.injEq] at h
        exact Option.noConfusion h.1
      | dir entries =>
        rw [hnode] at h
        dsimp only at h
        rw [Prod.mk.injEq] at h
        obtain ⟨h1, _⟩ := h
        obtain ⟨name, hfi, hpj⟩ := Option.map_eq_some'.mp h1
        unfold findLatestInDir at hfi
        obtain ⟨pr, hpm, hpr1⟩ := Option.map_eq_some'.mp hfi
        have hmem := (pickMax_mem_max _ pr hpm).1
        rw [List.mem_filterMap] at hmem
        obtain ⟨f0, hf0mem, hf0eq⟩ := hmem
        obtain ⟨t0, _, hpair⟩ := Option.map_eq_some'.mp hf0eq
        rw [List.mem_filter] at hf0mem
        obtain ⟨hf0files, hf0cand⟩ := hf0mem
        rw [List.mem_map] at hf0files
        obtain ⟨en, henmem, heneq⟩ := hf0files
        have hf0name : f0 = name := by
          rw [← hpr1, ← hpair]
        refine ⟨dir, entries, name, hnode, ⟨en, henmem, ?_⟩, ?_, hpj.symm⟩
        · rw [heneq, hf0name]
        · rw [← hf0name]
          exact hf0cand

/-- When the source file's base name contains `'~'`, every backup path that
`findLatestBackup` can return fails `validateFilePath` with the
`DIRECTORY_TRAVERSAL` error: the candidate filename starts with that base
name, so the tilde survives into the normalized backup path. -/
theorem rollback_candidate_traversal (cfg : Config) (env : Env) (offW : Int)
    (fs : FileSystem) (p latest : List Char) (ops : List FsOp)
    (hwf : FsWellFormed fs) (hbase : '~' ∈ basenameChars p)
    (hfl : findLatestBackupModel cfg env offW fs p = (some latest, ops)) :
    validateFilePath latest = .error .DIRECTORY_TRAVERSAL := by
  obtain ⟨dir, entries, name, hnode, ⟨en, henm, hen1⟩, hcand, hlat⟩ :=
    findLatestBackupModel_shape cfg env offW fs p latest ops hfl
  have hslash : ('/' : Char) ∉ name := by
    rw [← hen1]
    exact hwf dir entries hnode en henm
  unfold candidateFilter at hcand
  rw [Bool.and_eq_true] at hcand
  obtain ⟨hpre, hsuf⟩ := hcand
  rw [ List.isPrefixOf_iff_prefix] at hpre
  rw [List.isSuffixOf_iff_suffix] at hsuf
  obtain ⟨u, hu⟩ := hsuf
  have hbak : chars ".bak" = '.' :: chars "bak" := rfl
  have hn0 : name ≠ [] := by
    rw [← hu, hbak]
    simp
  have hlen : name.length = u.length + 4 := by
    rw [← hu, List.length_append]
    rfl
  have hn2 : name ≠ ['.'] := by
    intro hcon
    rw [hcon] at hlen
    simp at hlen
  have hn3 : name ≠ ['.', '.'] := by
    intro hcon
    rw [hcon] at hlen
    simp at hlen
  have hlastk : name.getLast? = some 'k' := by
    rw [← hu, hbak, List.getLast?_append_cons]
    rfl
  have hlast : name.getLast? ≠ some '/' := by
    rw [hlastk]
    decide
  have htname : '~' ∈ name := by
    obtain ⟨r, hr⟩ := hpre
    rw [← hr]
    exact List.mem_append.mpr (Or.inl (List.mem_append.mpr (Or.inl hbase)))
  have hES := pathJoin_endsSeg hn0 hslash hn2 hn3 hlast dir
  have hnelat : pathJoin dir name ≠ [] := by
    rcases hES with he | ⟨u2, he⟩
    · rw [he]
      exact hn0
    · rw [he]
      simp
  have hmemn : '~' ∈ pathNormalize (pathJoin dir name) :=
    mem_of_endsSeg '~' _ htname
      (pathNormalize_endsSeg hn0 hslash hn2 hn3 hlast _ hES)
  rw [hlat]
  unfold validateFilePath
  rw [if_neg hnelat, if_pos (Or.inr hmemn)]

theorem fsTilde_wf : FsWellFormed fsTilde := by
  intro d entries h en hen
  unfold fsTilde at h
  dsimp only at h
  by_cases hd : d = chars "/b"
  · rw [if_pos hd] at h
    injection h with h1
    injection h1 with h2
    subst h2
    rw [List.mem_singleton] at hen
    subst hen
    decide
  · rw [if_neg hd] at h
    exact Option.noConfusion h

/-- C10 (implicit behavior): `validateFilePath` throws `DIRECTORY_TRAVERSAL`
for every path whose normalized form contains `'~'` anywhere — not only for
parent-directory `..` segments — so an absolute path to a file whose own name
contains `'~'`, such as `/home/user/notes~.txt`, is always rejected: capture
fails validation and performs no write, and, for any filesystem whose
directory listings are bare entry names, restore can never succeed and never
writes, because every backup candidate's filename embeds the tilde-bearing
base name and is itself rejected by the rollback validator. -/
theorem claim_C10 (p : List Char) (h : '~' ∈ pathNormalize p)
    (hbase : '~' ∈ basenameChars p) :
    (validateFilePath p = .error .DIRECTORY_TRAVERSAL ∧
     (∀ fs, ∃ e, (validateFileForBackupModel fs p).1 = .error e) ∧
     ∀ cfg env fs now cancel st op,
       op ∈ (backupFileModel cfg env fs now cancel st p).2.2 → op.isWrite = false) ∧
    ∀ cfg env offW fs, FsWellFormed fs → ∀ confirm cancel st,
      (rollbackFileModel cfg env offW fs confirm cancel st p).2.1 ≠ .success ∧
      ∀ op ∈ (rollbackFileModel cfg env offW fs confirm cancel st p).2.2,
        op.isWriteTo p = false ∧ op.isWrite = false := by
  have hne : p ≠ [] := by
    intro hcon
    subst hcon
    simp [pathNormalize] at h
  have hval : validateFilePath p = .error .DIRECTORY_TRAVERSAL := by
    unfold validateFilePath
    rw [if_neg hne, if_pos (Or.inr h)]
  have hfails : ∀ fs : FileSystem, ∃ e, (validateFileForBackupModel fs p).1 = .error e := by
    intro fs
    unfold validateFileForBackupModel
    rw [hval]
    exact ⟨.DIRECTORY_TRAVERSAL, rfl⟩
  refine ⟨⟨hval, hfails, ?_⟩, ?_⟩
  · intro cfg env fs now cancel st op hop
    exact backupFileModel_no_write_of_invalid cfg env fs now cancel st p (hfails fs) op hop
  · intro cfg env offW fs hwf confirm cancel st
    by_cases hmem : p ∈ st
    · have hmain : rollbackFileModel cfg env offW fs confirm cancel st p
          = (st, .busy, []) := by
        unfold rollbackFileModel
        rw [if_pos hmem]
      rw [hmain]
      refine ⟨fun hc => RollbackOutcome.noConfusion hc, ?_⟩
      intro op hop
      exact absurd hop (List.not_mem_nil op)
    · cases hfl : findLatestBackupModel cfg env offW fs p with
      | mk o ops =>
        have hopsw : ∀ op ∈ ops, op.isWrite = false := by
          have hnw := findLatestBackupModel_no_write cfg env offW fs p
          rw [hfl] at hnw
          exact hnw
        cases o with
        | none =>
          have hmain : rollbackFileModel cfg env offW fs confirm cancel st p
              = (st, .noBackupFound, ops ++ diagnosticsOps cfg env fs p) := by
            unfold rollbackFileModel
            rw [if_neg hmem, hfl]
          rw [hmain]
          refine ⟨fun hc => RollbackOutcome.noConfusion hc, ?_⟩
          intro op hop
          have hw : op.isWrite = false := by
            rcases List.mem_append.mp hop with h1 | h1
            · exact hopsw op h1
            · exact diagnosticsOps_no_write cfg env fs p op h1
          exact ⟨isWriteTo_false_of_not_write p op hw, hw⟩
        | some latest =>
          have hvalb := rollback_candidate_traversal cfg env offW fs p latest ops hwf hbase hfl
          have hvb : validateBackupFileForRollbackModel fs latest
              = (.error .DIRECTORY_TRAVERSAL, []) := by
            unfold validateBackupFileForRollbackModel
            rw [hvalb]
          have htr : ∀ op ∈ ops ++ [FsOp.statOp latest],
              op.isWriteTo p = false ∧ op.isWrite = false := by
            intro op hop
            have hw : op.isWrite = false := by
              rcases List.mem_append.mp hop with h1 | h1
              · exact hopsw op h1
              · rw [List.mem_singleton] at h1
                subst h1
                rfl
            exact ⟨isWriteTo_false_of_not_write p op hw, hw⟩
          by_cases hconf : confirm = false
          · have hmain : rollbackFileModel cfg env offW fs confirm cancel st p
                = (st, .declined, ops ++ [FsOp.statOp latest]) := by
              unfold rollbackFileModel
              rw [if_neg hmem, hfl]
              dsimp only
              rw [if_pos hconf]
            rw [hmain]
            exact ⟨fun hc => RollbackOutcome.noConfusion hc, htr⟩
          · have hmain : rollbackFileModel cfg env offW fs confirm cancel st p
                = (st, .validationFailed .DIRECTORY_TRAVERSAL,
                    ops ++ [FsOp.statOp latest] ++ []) := by
              unfold rollbackFileModel
              rw [if_neg hmem, hfl]
              dsimp only
              rw [if_neg hconf, hvb]
            rw [hmain]
            refine ⟨fun hc => RollbackOutcome.noConfusion hc, ?_⟩
            intro op hop
            rw [List.append_nil] at hop
            exact htr op hop

theorem claim_C10_witness :
    ('~' ∈ pathNormalize (chars "/home/user/notes~.txt")) ∧
    ('~' ∈ basenameChars (chars "/home/user/notes~.txt")) ∧
    validateFilePath (chars "/home/user/notes~.txt") = .error .DIRECTORY_TRAVERSAL ∧
    (findLatestBackupModel cfgCustomB envWS 0 fsTilde (chars "/home/user/notes~.txt")).1
      = some (chars "/b/notes~.txt.2024-01-15_14-30-25.bak") ∧
    (rollbackFileModel cfgCustomB envWS 0 fsTilde true false []
      (chars "/home/user/notes~.txt")).2.1 = .validationFailed .DIRECTORY_TRAVERSAL ∧
    (rollbackFileModel cfgCustomB envWS 0 fsTilde true false []
      (chars "/home/user/notes~.txt")).2.1 ≠ .success := by
  have h := claim_C10 (chars "/home/user/notes~.txt") (by decide) (by decide)
  exact ⟨by decide, by decide, h.1.1, by decide, by decide,
    (h.2 cfgCustomB envWS 0 fsTilde fsTilde_wf true false []).1⟩

end BackupBuddy
